import Mathlib

/-!
# Verification of the sim logging façade and its sanitizer

A shallow embedding, in Lean 4, of the logging module of the `sim`
repository:

* the redaction pass over strings (`SENSITIVE_PATTERNS` / `sanitizeString`
  from the sanitizer source file),
* the deep sanitizer (`sanitizeObject` / `sanitizeLogData` /
  `sanitizeLogArgs`),
* the pattern queries (`containsSensitiveData` / `detectSensitivePatterns`),
  including the `lastIndex` state that JavaScript attaches to regexes
  created with the `g` flag,
* the structured logger (`StructuredLogger.formatLogData`, `child`, the
  level gate derived from `getLoggerConfig`),
* the console/structured logger façade (`Logger` with `LOG_CONFIG`,
  `shouldLog`, `formatArgs`, `log`, and constructor backend selection).

JavaScript values are embedded as the inductive type `JSVal`; object
references (which can form cycles) go through an explicit heap, so a
self-referential object is representable.  Machine strings are Lean
`String`s processed as `List Char`.  The six sensitive-data regexes are
embedded as explicit matchers; each of the six is deterministic (every
quantified subpattern ranges over a character class disjoint from the
character that must follow it, so greedy matching never backtracks), which
the matchers below exploit.  `String.prototype.replace` with a global
regex finds successive non-overlapping leftmost matches in the *original*
string, which is exactly what `runRepl` below does.
-/

namespace Sim

/-! ## Character classes of the embedded regexes -/

/-- JavaScript `\s` restricted to the ASCII whitespace characters. -/
def isWsChar (c : Char) : Bool :=
  c = ' ' || c = '\t' || c = '\n' || c = '\x0d' || c = '\x0b' || c = '\x0c'

/-- JavaScript `\w`, i.e. `[A-Za-z0-9_]` (used by the `\b` assertions). -/
def isWordChar (c : Char) : Bool :=
  c.isAlpha || c.isDigit || c = '_'

/-- The class `[A-Za-z0-9._-]` used by the bearer-token and generic-API-key
rules. -/
def isTokenChar (c : Char) : Bool :=
  isWordChar c || c = '.' || c = '-'

/-- The class `[A-Za-z0-9]` used by the `sk-` rule. -/
def isAlnumChar (c : Char) : Bool :=
  c.isAlpha || c.isDigit

/-- The class `[A-Za-z0-9_-]` used by the JWT rule. -/
def isJwtChar (c : Char) : Bool :=
  isWordChar c || c = '-'

/-- The single-quote character, written by code point to keep the source
free of quote literals. -/
def squote : Char := Char.ofNat 39

/-- The class `["']`. -/
def isQuoteChar (c : Char) : Bool :=
  c = '"' || c = squote

/-- `\b` holds in front of a word character iff the previous character (if
any) is not a word character. -/
def prevIsWord : Option Char → Bool
  | none => false
  | some c => isWordChar c

/-- Length of the longest run of characters satisfying `p` at the head of
the list (the deterministic reading of a greedy `X*` over class `X`). -/
def countLeading (p : Char → Bool) (l : List Char) : Nat :=
  (l.takeWhile p).length

/-- Case-insensitive literal match at the head of the list (the reading of
a literal under the `i` flag). -/
def isPrefixCI : List Char → List Char → Bool
  | [], _ => true
  | _ :: _, [] => false
  | a :: as, b :: bs => (a.toLower == b.toLower) && isPrefixCI as bs

/-- Case-sensitive literal match at the head of the list. -/
def isPrefixCS : List Char → List Char → Bool
  | [], _ => true
  | _ :: _, [] => false
  | a :: as, b :: bs => (a == b) && isPrefixCS as bs

/-! ## The six sensitive patterns

Each rule is embedded as a matcher `tryAt prev l`, returning the length of
the (unique) match of the regex at the head of `l`, where `prev` is the
character just before `l` in the scanned string (`none` at string start;
needed by `\b`), together with a replacement function over the matched
characters, mirroring the `pattern`/`replacement` fields of the
`SENSITIVE_PATTERNS` array. -/

/-- Matcher of `/Bearer\s+[A-Za-z0-9._-]+/gi`. -/
def bearerTry (_prev : Option Char) (l : List Char) : Option Nat :=
  if isPrefixCI "bearer".toList l then
    let rest := l.drop 6
    let w := countLeading isWsChar rest
    if w = 0 then none
    else
      let t := countLeading isTokenChar (rest.drop w)
      if t = 0 then none else some (6 + w + t)
  else none

/-- Replacement of the bearer rule: the fixed string `Bearer [REDACTED]`. -/
def bearerRepl (_m : List Char) : List Char :=
  "Bearer [REDACTED]".toList

/-- Matcher of `/\bsk-[A-Za-z0-9]{20,}/g` (case sensitive, `\b` before the
`s`). -/
def skTry (prev : Option Char) (l : List Char) : Option Nat :=
  if prevIsWord prev then none
  else if isPrefixCS "sk-".toList l then
    let a := countLeading isAlnumChar (l.drop 3)
    if 20 ≤ a then some (3 + a) else none
  else none

/-- Replacement of the `sk-` rule: the fixed string `sk-[REDACTED]`. -/
def skRepl (_m : List Char) : List Char :=
  "sk-[REDACTED]".toList

/-- Matcher of
`/\b(?:api_key|apikey|api-key)\s*[=:]\s*["']?[A-Za-z0-9._-]{16,}["']?/gi`.
The three alternatives diverge after their common prefix `api`, so at most
one of them matches at a given position.  If the optional opening quote is
present but fewer than 16 token characters follow it, backtracking to the
quoteless alternative cannot succeed either (a quote is not a token
character), so consuming the quote greedily is exact. -/
def apiKeyTry (prev : Option Char) (l : List Char) : Option Nat :=
  if prevIsWord prev then none
  else
    let pre :=
      if isPrefixCI "api_key".toList l then some 7
      else if isPrefixCI "apikey".toList l then some 6
      else if isPrefixCI "api-key".toList l then some 7
      else none
    match pre with
    | none => none
    | some p =>
      let r1 := l.drop p
      let w1 := countLeading isWsChar r1
      match r1.drop w1 with
      | [] => none
      | c :: r3 =>
        if c = '=' || c = ':' then
          let w2 := countLeading isWsChar r3
          let r4 := r3.drop w2
          let q := match r4 with
            | c2 :: _ => if isQuoteChar c2 then 1 else 0
            | [] => 0
          let r5 := r4.drop q
          let t := countLeading isTokenChar r5
          if 16 ≤ t then
            let q2 := match r5.drop t with
              | c3 :: _ => if isQuoteChar c3 then 1 else 0
              | [] => 0
            some (p + w1 + 1 + w2 + q + t + q2)
          else none
        else none

/-- Fuel-driven scanner of the generic-API-key rule's inner replacement;
each step consumes at least one character, so `m.length + 1` fuel always
suffices (on exhaustion the remaining text is returned unchanged, which is
unreachable from the wrapper below).  Structural recursion on the fuel
keeps the function kernel-reducible. -/
def replaceLongTokenRunsF : Nat → List Char → List Char
  | 0, m => m
  | _ + 1, [] => []
  | fuel + 1, c :: cs =>
    if isTokenChar c then
      let r := countLeading isTokenChar cs
      (if 15 ≤ r then "[REDACTED]".toList else c :: cs.take r)
        ++ replaceLongTokenRunsF fuel (cs.drop r)
    else
      c :: replaceLongTokenRunsF fuel cs

/-- Replacement function of the generic-API-key rule:
`match.replace(/[A-Za-z0-9._-]{16,}/g, '[REDACTED]')`, i.e. every maximal
run of 16 or more token characters inside the match becomes
`[REDACTED]`. -/
def replaceLongTokenRuns (m : List Char) : List Char :=
  replaceLongTokenRunsF (m.length + 1) m

/-- Matcher of `/(?:password|secret|key)\s*[=:]\s*["'][^"']{2,}["']/gi`
(no `\b`; the three alternatives start with distinct letters). -/
def passwordTry (_prev : Option Char) (l : List Char) : Option Nat :=
  let pre :=
    if isPrefixCI "password".toList l then some 8
    else if isPrefixCI "secret".toList l then some 6
    else if isPrefixCI "key".toList l then some 3
    else none
  match pre with
  | none => none
  | some p =>
    let r1 := l.drop p
    let w1 := countLeading isWsChar r1
    match r1.drop w1 with
    | [] => none
    | c :: r3 =>
      if c = '=' || c = ':' then
        let w2 := countLeading isWsChar r3
        match r3.drop w2 with
        | [] => none
        | c2 :: r5 =>
          if isQuoteChar c2 then
            let r := countLeading (fun d => !isQuoteChar d) r5
            if 2 ≤ r then
              match r5.drop r with
              | c3 :: _ =>
                if isQuoteChar c3 then some (p + w1 + 1 + w2 + 1 + r + 1)
                else none
              | [] => none
            else none
          else none
      else none

/-- Replacement function of the password/secret/key rule:
`match.replace(/["'][^"']{2,}["']/, '"[REDACTED]"')` — the quoted segment
of the match (which starts at the first quote character in it) becomes
`"[REDACTED]"`. -/
def passwordRepl (m : List Char) : List Char :=
  m.takeWhile (fun d => !isQuoteChar d) ++ ("\"[REDACTED]\"".toList)

/-- Matcher of `/\beyJ[A-Za-z0-9_-]+\.[A-Za-z0-9_-]+\.[A-Za-z0-9_-]*/g`
(case sensitive). -/
def jwtTry (prev : Option Char) (l : List Char) : Option Nat :=
  if prevIsWord prev then none
  else if isPrefixCS "eyJ".toList l then
    let r1 := countLeading isJwtChar (l.drop 3)
    if r1 = 0 then none
    else
      match l.drop (3 + r1) with
      | '.' :: s2 =>
        let r2 := countLeading isJwtChar s2
        if r2 = 0 then none
        else
          match s2.drop r2 with
          | '.' :: s3 =>
            let r3 := countLeading isJwtChar s3
            some (3 + r1 + 1 + r2 + 1 + r3)
          | _ => none
      | _ => none
  else none

/-- Replacement of the JWT rule: the fixed string `eyJ[REDACTED_JWT]`. -/
def jwtRepl (_m : List Char) : List Char :=
  "eyJ[REDACTED_JWT]".toList

/-- Matcher of `/(postgresql:\/\/[^:]+:)[^@]+(@[^/]+)/gi`. -/
def pgTry (_prev : Option Char) (l : List Char) : Option Nat :=
  if isPrefixCI "postgresql://".toList l then
    let r1 := l.drop 13
    let u := countLeading (fun d => !(d = ':')) r1
    if u = 0 then none
    else
      match r1.drop u with
      | ':' :: r2 =>
        let pw := countLeading (fun d => !(d = '@')) r2
        if pw = 0 then none
        else
          match r2.drop pw with
          | '@' :: r3 =>
            let host := countLeading (fun d => !(d = '/')) r3
            if host = 0 then none else some (13 + u + 1 + pw + 1 + host)
          | _ => none
      | _ => none
  else none

/-- Replacement of the connection-string rule, `'$1[REDACTED]$2'`: group 1
is `postgresql://` (as matched) up to and including the colon that ends the
user name, group 2 is the `@host` tail. -/
def pgRepl (m : List Char) : List Char :=
  let r1 := m.drop 13
  let u := countLeading (fun d => !(d = ':')) r1
  let r2 := r1.drop (u + 1)
  let pw := countLeading (fun d => !(d = '@')) r2
  m.take (13 + u + 1) ++ "[REDACTED]".toList ++ r2.drop pw

/-- One entry of the `SENSITIVE_PATTERNS` array: the regex (as a matcher),
the replacement (fixed strings are functions ignoring the match), and the
human-readable description. -/
structure SensitivePattern where
  tryAt : Option Char → List Char → Option Nat
  repl : List Char → List Char
  description : String

/-- The `SENSITIVE_PATTERNS` array, in source order. -/
def SENSITIVE_PATTERNS : List SensitivePattern :=
  [ ⟨bearerTry, bearerRepl, "Bearer tokens"⟩,
    ⟨skTry, skRepl, "OpenAI/Stripe-style API keys"⟩,
    ⟨apiKeyTry, replaceLongTokenRuns, "Generic API keys"⟩,
    ⟨passwordTry, passwordRepl, "Password/secret fields"⟩,
    ⟨jwtTry, jwtRepl, "JWT tokens"⟩,
    ⟨pgTry, pgRepl, "Database connection strings"⟩ ]

/-! ## Replacement engine -/

/-- `String.prototype.replace` with a global regex: scan left to right on
the original string; at each position, if the pattern matches, emit the
replacement and continue after the match, otherwise keep the character.
`prev` is the character before the current position (for `\b`).  None of
the embedded patterns can match the empty string; a hypothetical
zero-length match is skipped over like a non-match to keep the scan
well-founded. -/
def runReplF (r : SensitivePattern) : Nat → Option Char → List Char →
    List Char
  | 0, _, l => l
  | _ + 1, _, [] => []
  | fuel + 1, prev, c :: cs =>
    match r.tryAt prev (c :: cs) with
    | some (n + 1) =>
      let m := (c :: cs).take (n + 1)
      r.repl m ++ runReplF r fuel (m.getLast?) ((c :: cs).drop (n + 1))
    | _ => c :: runReplF r fuel (some c) cs

/-- The replacement scan of one rule over a whole string.  Every step of
`runReplF` consumes at least one character, so `l.length + 1` fuel always
suffices (on exhaustion the remaining text would be returned unchanged,
which is unreachable from here). -/
def runRepl (r : SensitivePattern) (prev : Option Char) (l : List Char) :
    List Char :=
  runReplF r (l.length + 1) prev l

/-- `sanitizeString`: fold the rules over the string, each rule scanning
the previous rule's output. -/
def sanitizeString (s : String) : String :=
  String.mk (SENSITIVE_PATTERNS.foldl (fun acc r => runRepl r none acc) s.data)

/-! ## `RegExp.prototype.test` and its `lastIndex` state

The regexes in `SENSITIVE_PATTERNS` all carry the `g` flag, so
`pattern.test(input)` starts searching at the regex object's `lastIndex`,
sets `lastIndex` to the end of the match when it finds one, and resets
`lastIndex` to 0 when it does not.  (`String.prototype.replace` with a
global regex ignores and finally resets `lastIndex`, so `sanitizeString`
is unaffected.)  The mutable `lastIndex` fields of the six pattern objects
are modelled as a list of six numbers threaded through the queries. -/

/-- Position of the end of the leftmost match starting at or after `from`;
`prev` is the character before `l`, `i` the absolute position of `l`'s
head. -/
def findFromAux (r : SensitivePattern) (start : Nat) :
    Option Char → List Char → Nat → Option Nat
  | _, [], _ => none
  | prev, c :: cs, i =>
    if start ≤ i then
      match r.tryAt prev (c :: cs) with
      | some n => some (i + n)
      | none => findFromAux r start (some c) cs (i + 1)
    else findFromAux r start (some c) cs (i + 1)

/-- `regex.test(s)` for a `g`-flagged regex whose `lastIndex` is `li`:
returns the result together with the updated `lastIndex`. -/
def jsTest (r : SensitivePattern) (li : Nat) (s : List Char) : Bool × Nat :=
  if s.length < li then (false, 0)
  else
    match findFromAux r li none s 0 with
    | some e => (true, e)
    | none => (false, 0)

/-- The initial state of the pattern list: every `lastIndex` is 0 when the
module is loaded. -/
def initPatternState : List Nat := [0, 0, 0, 0, 0, 0]

/-- `SENSITIVE_PATTERNS.some(({pattern}) => pattern.test(input))`:
`Array.prototype.some` short-circuits, so only the patterns up to and
including the first hit have their `lastIndex` updated. -/
def someTest : List SensitivePattern → List Nat → List Char →
    Bool × List Nat
  | [], st, _ => (false, st)
  | _ :: _, [], _ => (false, [])
  | r :: rs, li :: ls, s =>
    let (b, li') := jsTest r li s
    if b then (true, li' :: ls)
    else
      let (b2, ls') := someTest rs ls s
      (b2, li' :: ls')

/-- `containsSensitiveData`, with the regex `lastIndex` state made
explicit. -/
def containsSensitiveData (st : List Nat) (input : String) :
    Bool × List Nat :=
  someTest SENSITIVE_PATTERNS st input.data

/-- `SENSITIVE_PATTERNS.filter(({pattern}) => pattern.test(input))
.map(({description}) => description)`: `filter` tests every pattern, so
every `lastIndex` is updated. -/
def filterTest : List SensitivePattern → List Nat → List Char →
    List String × List Nat
  | [], st, _ => ([], st)
  | _ :: _, [], _ => ([], [])
  | r :: rs, li :: ls, s =>
    let (b, li') := jsTest r li s
    let (ds, ls') := filterTest rs ls s
    (if b then r.description :: ds else ds, li' :: ls')

/-- `detectSensitivePatterns`, with the regex `lastIndex` state made
explicit. -/
def detectSensitivePatterns (st : List Nat) (input : String) :
    List String × List Nat :=
  filterTest SENSITIVE_PATTERNS st input.data

/-! ## JavaScript values

`JSVal` embeds the values the sanitizer can receive.  Plain objects can be
given either directly (`obj`, for acyclic data) or as a reference into an
explicit heap (`ref`), which makes self-referential objects representable.
`date` carries the string its `toISOString()` returns; `err` carries
`name`, `message`, `stack` and the remaining own properties; `jsmap` and
`jsset` model `Map`/`Set` instances: their internal entries/elements plus
their own enumerable string-keyed properties (normally none).  `poison`
models an object whose property enumeration (`Object.entries`) throws,
e.g. a revoked `Proxy`; the carried string is the thrown error's
message. -/
inductive JSVal where
  | null
  | undef
  | bool (b : Bool)
  | num (n : Int)
  | str (s : String)
  | func
  | date (iso : String)
  | err (name message : String) (stack : Option String)
      (extras : List (String × JSVal))
  | arr (elems : List JSVal)
  | obj (entries : List (String × JSVal))
  | jsmap (items : List (JSVal × JSVal)) (own : List (String × JSVal))
  | jsset (items : List JSVal) (own : List (String × JSVal))
  | ref (addr : Nat)
  | poison (msg : String)

/-- The ambient state the module reads: the heap backing `JSVal.ref`, the
process environment name `env.NODE_ENV`, and whether the code runs
server-side (`typeof window === 'undefined'`). -/
structure Ctx where
  heap : List (List (String × JSVal))
  nodeEnv : String
  isServer : Bool

/-- JavaScript `typeof`. -/
def jsTypeof : JSVal → String
  | .null => "object"
  | .undef => "undefined"
  | .bool _ => "boolean"
  | .num _ => "number"
  | .str _ => "string"
  | .func => "function"
  | _ => "object"

/-- Own enumerable string-keyed properties contributed by spreading a
value into an object literal (`{...v}`): an object's entries, a string's
or array's indexed elements, nothing for other primitives. -/
def spreadEntries : JSVal → List (String × JSVal)
  | .obj e => e
  | .str s => s.data.enum.map (fun p => (toString p.1, .str (String.mk [p.2])))
  | .arr l => l.enum.map (fun p => (toString p.1, p.2))
  | .jsmap _ own => own
  | .jsset _ own => own
  | .err _ _ _ extras => extras
  | _ => []

/-- `typeof value === 'function'`. -/
def isFunc : JSVal → Bool
  | .func => true
  | _ => false

/-! ## The deep sanitizer

`sanitizeObject` mirrors the source function case by case.  Exceptions are
modelled with `Except String`: only a `poison` value throws; the per-entry
`try`/`catch` of the plain-object loop converts a thrown entry into the
`'[CIRCULAR_REFERENCE]'` sentinel, while the array branch has no handler,
so a throw inside an array propagates.  The `maxDepth <= 0` check comes
first, so every value at depth 0 becomes `'[MAX_DEPTH_REACHED]'` — in
particular a cyclic object terminates through this cap. -/

/-- `obj.map((item) => sanitizeObject(item, maxDepth - 1))` for the array
branch, parameterized by the recursive call at the decremented depth; a
thrown element propagates (the branch has no handler). -/
def sanitizeListWith (f : JSVal → Except String JSVal) :
    List JSVal → Except String (List JSVal)
  | [] => .ok []
  | x :: xs => do
    let r ← f x
    let rs ← sanitizeListWith f xs
    .ok (r :: rs)

/-- The `for (const [key, value] of Object.entries(obj))` loop of the
plain-object branch, parameterized by the recursive call at the decremented
depth: function-valued entries are skipped, a throwing entry becomes the
`'[CIRCULAR_REFERENCE]'` sentinel.  (JavaScript object keys are unique, so
the per-key assignment appends in enumeration order.) -/
def sanitizeEntriesWith (f : JSVal → Except String JSVal) :
    List (String × JSVal) → List (String × JSVal)
  | [] => []
  | (k, v) :: rest =>
    if isFunc v then sanitizeEntriesWith f rest
    else
      match f v with
      | .ok r => (k, r) :: sanitizeEntriesWith f rest
      | .error _ => (k, .str "[CIRCULAR_REFERENCE]") :: sanitizeEntriesWith f rest

/-- `sanitizeObject(obj, maxDepth)`.  Every recursive call of the source
decrements `maxDepth`, so the embedding recurses structurally on the depth
(and is therefore kernel-reducible).  The array branch
(`obj.map((item) => sanitizeObject(item, maxDepth - 1))`) has no handler,
so errors propagate out of it. -/
def sanitizeObject (ctx : Ctx) (v : JSVal) (maxDepth : Nat) :
    Except String JSVal :=
  match maxDepth with
  | 0 => .ok (.str "[MAX_DEPTH_REACHED]")
  | d + 1 =>
    match v with
    | .null => .ok v
    | .undef => .ok v
    | .str s => .ok (.str (sanitizeString s))
    | .num _ => .ok v
    | .bool _ => .ok v
    | .err name message stack extras => do
      let spreadSrc ← sanitizeObject ctx (.obj extras) d
      .ok (.obj ([("name", .str name),
                  ("message", .str (sanitizeString message)),
                  ("stack",
                    if ctx.nodeEnv = "development" then
                      .str (sanitizeString (stack.getD ""))
                    else .undef)] ++ spreadEntries spreadSrc))
    | .date iso => .ok (.str iso)
    | .arr items => do
      let rs ← sanitizeListWith (fun item => sanitizeObject ctx item d) items
      .ok (.arr rs)
    | .obj entries =>
      .ok (.obj (sanitizeEntriesWith (fun w => sanitizeObject ctx w d) entries))
    | .jsmap _ own =>
      .ok (.obj (sanitizeEntriesWith (fun w => sanitizeObject ctx w d) own))
    | .jsset _ own =>
      .ok (.obj (sanitizeEntriesWith (fun w => sanitizeObject ctx w d) own))
    | .ref a =>
      .ok (.obj (sanitizeEntriesWith (fun w => sanitizeObject ctx w d)
        (ctx.heap.getD a [])))
    | .poison msg => .error msg
    | .func => .ok v

/-- `sanitizeLogData(data)`: the top-level failure boundary.  A thrown
value is modelled by its message string, matching the
`error instanceof Error ? error.message : String(error)` readout. -/
def sanitizeLogData (ctx : Ctx) (data : JSVal) : JSVal :=
  match sanitizeObject ctx data 10 with
  | .ok r => r
  | .error msg =>
    .obj [("_sanitization_error", .bool true),
          ("_original_type", .str (jsTypeof data)),
          ("_error", .str msg)]

/-- `sanitizeLogArgs(args)`. -/
def sanitizeLogArgs (ctx : Ctx) (args : List JSVal) : List JSVal :=
  args.map (sanitizeLogData ctx)

/-! ## Object assignment and spread -/

/-- JavaScript property assignment `o[k] = v`: update in place when the
key exists (keeping its position), append otherwise. -/
def setKey (e : List (String × JSVal)) (k : String) (v : JSVal) :
    List (String × JSVal) :=
  if e.any (fun p => p.1 == k) then
    e.map (fun p => if p.1 == k then (k, v) else p)
  else e ++ [(k, v)]

/-- `{...a, ...b}`: spread `a`, then assign every entry of `b` (later keys
win, first occurrence keeps its position). -/
def objMerge (a b : List (String × JSVal)) : List (String × JSVal) :=
  b.foldl (fun acc p => setKey acc p.1 p.2) a

/-- Entry list of a sanitized context; `sanitizeLogData` maps an `obj` at
the top-level depth budget to an `obj`, so the fallback is unreachable. -/
def entriesOfObj : JSVal → List (String × JSVal)
  | .obj e => e
  | _ => []

/-! ## The structured logger (`StructuredLogger` over Pino)

The Pino instance is configured once from `env.NODE_ENV` by
`getLoggerConfig`; the part of the configuration that decides whether a
record is emitted is the level: `'silent'` under test (admits nothing,
modelled as a threshold above every level), `'debug'` in development,
`'info'` otherwise. -/

/-- Pino's numeric levels, the structured logger's `LogLevel` enum. -/
inductive SLogLevel where
  | trace | debug | info | warn | error | fatal
deriving DecidableEq

/-- The numeric value of each structured level. -/
def slevelValue : SLogLevel → Nat
  | .trace => 10
  | .debug => 20
  | .info => 30
  | .warn => 40
  | .error => 50
  | .fatal => 60

/-- The level string chosen by `getLoggerConfig`. -/
def pinoLevel (nodeEnv : String) : String :=
  if nodeEnv = "test" then "silent"
  else if nodeEnv = "development" then "debug"
  else "info"

/-- Numeric threshold of a Pino level string; `'silent'` is above every
level. -/
def pinoLevelValue (lv : String) : Nat :=
  if lv = "trace" then 10
  else if lv = "debug" then 20
  else if lv = "info" then 30
  else if lv = "warn" then 40
  else if lv = "error" then 50
  else if lv = "fatal" then 60
  else 1000

/-- Whether the configured Pino instance emits a record at `lvl`. -/
def pinoEmits (nodeEnv : String) (lvl : SLogLevel) : Bool :=
  pinoLevelValue (pinoLevel nodeEnv) ≤ slevelValue lvl

/-- The mutable state of a `StructuredLogger` instance: its module name
and its private default context. -/
structure SLoggerState where
  module : String
  defaultContext : List (String × JSVal)

/-- `new StructuredLogger(module, defaultContext)`:
`this.defaultContext = { module, ...defaultContext }`. -/
def mkStructuredLogger (module : String)
    (defaultContext : List (String × JSVal)) : SLoggerState :=
  ⟨module, objMerge [("module", .str module)] defaultContext⟩

/-- `StructuredLogger.child(context)`: a fresh instance over the merged
default context (the parent is untouched). -/
def structuredChild (st : SLoggerState) (context : List (String × JSVal)) :
    SLoggerState :=
  mkStructuredLogger st.module (objMerge st.defaultContext context)

/-- `StructuredLogger.formatLogData(message, context, ...args)`.  When
`context` is absent, `sanitizedContext` *aliases* `this.defaultContext`,
so the `sanitizedContext.additionalData = sanitizedArgs` assignment
mutates the instance's default context; the updated instance state is
returned alongside the log record. -/
def formatLogData (ctx : Ctx) (st : SLoggerState) (message : String)
    (context : Option (List (String × JSVal))) (args : List JSVal) :
    List (String × JSVal) × SLoggerState :=
  let sanitizedContext :=
    match context with
    | some c => entriesOfObj (sanitizeLogData ctx (.obj (objMerge st.defaultContext c)))
    | none => st.defaultContext
  let sanitizedArgs := if 0 < args.length then sanitizeLogArgs ctx args else []
  if 0 < sanitizedArgs.length then
    let withAdditional := setKey sanitizedContext "additionalData" (.arr sanitizedArgs)
    (objMerge [("msg", .str message)] withAdditional,
     match context with
     | none => { st with defaultContext := withAdditional }
     | some _ => st)
  else
    (objMerge [("msg", .str message)] sanitizedContext, st)

/-- A record handed to the Pino backend: the level and the
`formatLogData` object.  (The Pino instance additionally stamps static
base fields — pid, hostname, environment, version — which carry no
per-call information and are not modelled.) -/
structure SRecord where
  level : SLogLevel
  data : List (String × JSVal)

/-- One structured log call (`trace`/`debug`/…/`fatal`/`logWithLevel`, all
of which build `formatLogData` and hand it to the Pino method of the
level): the emitted record, if the configured level admits one, and the
updated instance state. -/
def structuredEmit (ctx : Ctx) (st : SLoggerState) (lvl : SLogLevel)
    (message : String) (context : Option (List (String × JSVal)))
    (args : List JSVal) : Option SRecord × SLoggerState :=
  let (logData, st') := formatLogData ctx st message context args
  (if pinoEmits ctx.nodeEnv lvl then some ⟨lvl, logData⟩ else none, st')

/-! ## JSON serialization used by the console backend

`formatObject` pretty-prints an argument with `JSON.stringify`, catching
the `TypeError` thrown on circular structures.  `JSON.stringify` is
embedded with its stack-based cycle detection; `undefined` results are
`none`.  The whitespace produced by the `indent` argument (2 in
development, 0 otherwise) does not change which data is emitted and is
not modelled. -/

/-- JSON string escaping for the characters the embedded values use. -/
def jsonEscapeChar (c : Char) : List Char :=
  if c = '"' then ['\\', '"']
  else if c = '\\' then ['\\', '\\']
  else if c = '\n' then ['\\', 'n']
  else if c = '\t' then ['\\', 't']
  else if c = '\x0d' then ['\\', 'r']
  else [c]

/-- A JSON string literal. -/
def jsonQuote (s : String) : String :=
  "\"" ++ String.mk (s.data.map jsonEscapeChar).flatten ++ "\""

/-- Number of heap addresses not yet on the serialization stack; the
termination measure of the `JSON.stringify` recursion. -/
def freshCount (ctx : Ctx) (stack : List Nat) : Nat :=
  ((List.range ctx.heap.length).filter (fun x => !(stack.contains x))).length

theorem length_filter_le_of_imp {α} (l : List α) (p q : α → Bool)
    (himp : ∀ x, q x = true → p x = true) :
    (l.filter q).length ≤ (l.filter p).length := by
  induction l with
  | nil => simp
  | cons a as ih =>
    by_cases hq : q a = true
    · have hp := himp a hq
      simp [List.filter, hq, hp]
      omega
    · have hq' : q a = false := by simp_all
      by_cases hp : p a = true <;> simp [List.filter, hq', hp] <;> omega

theorem length_filter_lt_of_witness {α} (l : List α) (p q : α → Bool)
    (himp : ∀ x, q x = true → p x = true) (x : α) (hx : x ∈ l)
    (hpx : p x = true) (hqx : q x = false) :
    (l.filter q).length < (l.filter p).length := by
  induction l with
  | nil => cases hx
  | cons a as ih =>
    rcases List.mem_cons.mp hx with h | h
    · subst h
      have := length_filter_le_of_imp as p q himp
      simp [List.filter, hpx, hqx]
      omega
    · by_cases hq : q a = true
      · have hp := himp a hq
        simp [List.filter, hq, hp]
        exact ih h
      · have hq' : q a = false := by simp_all
        have := ih h
        by_cases hp : p a = true <;> simp [List.filter, hq', hp] <;> omega

/-- Pushing a fresh valid address onto the stack strictly decreases the
count of fresh addresses. -/
theorem freshCount_push_lt (ctx : Ctx) (stack : List Nat) (a : Nat)
    (ha : a < ctx.heap.length) (hs : ¬ stack.contains a = true) :
    freshCount ctx (a :: stack) < freshCount ctx stack := by
  refine length_filter_lt_of_witness _ _ _ ?_ a ?_ ?_ ?_
  · intro x hx
    simp only [Bool.not_eq_true', List.contains_cons, Bool.or_eq_false_iff] at hx
    simp only [Bool.not_eq_true']
    exact hx.2
  · exact List.mem_range.mpr ha
  · simp_all
  · simp

mutual

/-- `JSON.stringify` on a value, given the stack of object addresses
being serialized: `.error ()` models the thrown `TypeError` (circular
structure, or a throwing property access), `none` models an `undefined`
result. -/
def jsonVal (ctx : Ctx) (stack : List Nat) (v : JSVal) :
    Except Unit (Option String) :=
  match v with
  | .null => .ok (some "null")
  | .undef => .ok none
  | .bool b => .ok (some (cond b "true" "false"))
  | .num n => .ok (some (toString n))
  | .str s => .ok (some (jsonQuote s))
  | .func => .ok none
  | .date iso => .ok (some (jsonQuote iso))
  | .err _ _ _ extras => do
    let fields ← jsonFields ctx stack extras
    .ok (some ("\x7b" ++ String.intercalate "," fields ++ "\x7d"))
  | .arr l => do
    let elems ← jsonElems ctx stack l
    .ok (some ("[" ++ String.intercalate "," elems ++ "]"))
  | .obj e => do
    let fields ← jsonFields ctx stack e
    .ok (some ("\x7b" ++ String.intercalate "," fields ++ "\x7d"))
  | .jsmap _ own => do
    let fields ← jsonFields ctx stack own
    .ok (some ("\x7b" ++ String.intercalate "," fields ++ "\x7d"))
  | .jsset _ own => do
    let fields ← jsonFields ctx stack own
    .ok (some ("\x7b" ++ String.intercalate "," fields ++ "\x7d"))
  | .poison _ => .error ()
  | .ref a =>
    if _hs : stack.contains a then .error ()
    else if ha : a < ctx.heap.length then do
      let fields ← jsonFields ctx (a :: stack) (ctx.heap.get ⟨a, ha⟩)
      .ok (some ("\x7b" ++ String.intercalate "," fields ++ "\x7d"))
    else .ok (some "\x7b\x7d")
termination_by (freshCount ctx stack, sizeOf v)
decreasing_by
  all_goals first
    | exact Prod.Lex.left _ _ (freshCount_push_lt ctx stack a ha (by simp_all))
    | decreasing_tactic

/-- Serialized `"key":value` fields of an object; `undefined`-valued
entries are omitted. -/
def jsonFields (ctx : Ctx) (stack : List Nat) (l : List (String × JSVal)) :
    Except Unit (List String) :=
  match l with
  | [] => .ok []
  | (k, v) :: rest => do
    let s? ← jsonVal ctx stack v
    let tail ← jsonFields ctx stack rest
    .ok (match s? with
      | some s => (jsonQuote k ++ ":" ++ s) :: tail
      | none => tail)
termination_by (freshCount ctx stack, sizeOf l)

/-- Serialized elements of an array; `undefined` elements become
`null`. -/
def jsonElems (ctx : Ctx) (stack : List Nat) (l : List JSVal) :
    Except Unit (List String) :=
  match l with
  | [] => .ok []
  | v :: rest => do
    let s? ← jsonVal ctx stack v
    let tail ← jsonElems ctx stack rest
    .ok ((s?.getD "null") :: tail)
termination_by (freshCount ctx stack, sizeOf l)

end


/-! ## The logger façade (`Logger` from the console logger source) -/

/-- The façade's `LogLevel` enum. -/
inductive LogLevel where
  | DEBUG | INFO | WARN | ERROR
deriving DecidableEq

/-- One environment row of `LOG_CONFIG`. -/
structure LogConfig where
  enabled : Bool
  minLevel : LogLevel
  colorize : Bool
  useStructured : Bool

/-- `LOG_CONFIG.development`. -/
def developmentConfig : LogConfig := LogConfig.mk true LogLevel.DEBUG true false

/-- `LOG_CONFIG.production`. -/
def productionConfig : LogConfig := LogConfig.mk true LogLevel.INFO false true

/-- `LOG_CONFIG.test`. -/
def testConfig : LogConfig := LogConfig.mk false LogLevel.ERROR false false

/-- The `LOG_CONFIG` table as a lookup. -/
def LOG_CONFIG (k : String) : Option LogConfig :=
  if k = "development" then some developmentConfig
  else if k = "production" then some productionConfig
  else if k = "test" then some testConfig
  else none

/-- `const ENV = (env.NODE_ENV || 'development')` — the empty string is
falsy. -/
def ENV (nodeEnv : String) : String :=
  if nodeEnv = "" then "development" else nodeEnv

/-- `const config = LOG_CONFIG[ENV] || LOG_CONFIG.development`. -/
def activeConfig (nodeEnv : String) : LogConfig :=
  (LOG_CONFIG (ENV nodeEnv)).getD developmentConfig

/-- `formatObject(obj)`: `JSON.stringify` (with the Error special case)
under a handler that degrades to the fallback string.  The result is
`none` when `JSON.stringify` returns `undefined` (impossible for the
object-typed arguments `formatArgs` passes in). -/
def formatObject (ctx : Ctx) (v : JSVal) : Option String :=
  let attempt :=
    match v with
    | .err _ message stack extras =>
      jsonVal ctx []
        (JSVal.obj ([("message", JSVal.str message),
                ("stack",
                  if ENV ctx.nodeEnv = "development" then
                    match stack with
                    | some s => JSVal.str s
                    | none => JSVal.undef
                  else JSVal.undef)] ++ extras))
    | _ => jsonVal ctx [] v
  match attempt with
  | .ok s? => s?
  | .error _ => some "[Circular or Non-Serializable Object]"

/-- `Logger.formatArgs(args)`: objects are JSON-rendered, everything else
passes through unchanged — in particular no argument is sanitized on this
path. -/
def formatArgs (ctx : Ctx) (args : List JSVal) : List JSVal :=
  args.map (fun arg =>
    match arg with
    | .null => arg
    | .undef => arg
    | a =>
      if jsTypeof a = "object" then
        match formatObject ctx a with
        | some s => .str s
        | none => .undef
      else a)

/-- The `levels` array of `shouldLog`. -/
def levels : List LogLevel := [.DEBUG, .INFO, .WARN, .ERROR]

/-- `levels.indexOf`. -/
def levelIndex (lvl : LogLevel) : Nat :=
  match lvl with
  | .DEBUG => 0
  | .INFO => 1
  | .WARN => 2
  | .ERROR => 3

/-- `Logger.shouldLogInEnvironment()`: production logs only server-side;
development and test follow `config.enabled`. -/
def shouldLogInEnvironment (ctx : Ctx) : Bool :=
  if ENV ctx.nodeEnv = "production" then ctx.isServer
  else (activeConfig ctx.nodeEnv).enabled

/-- `Logger.shouldLog(level)`. -/
def shouldLog (ctx : Ctx) (level : LogLevel) : Bool :=
  shouldLogInEnvironment ctx &&
    levelIndex (activeConfig ctx.nodeEnv).minLevel ≤ levelIndex level

/-- One line written by the console backend: the timestamp/level/module
prefix data, the message, the formatted arguments, whether the prefix was
colorized, and whether it went to `console.error` rather than
`console.log`. -/
structure ConsoleRecord where
  timestamp : String
  level : LogLevel
  module : String
  message : String
  args : List JSVal
  colorized : Bool
  toStderr : Bool

/-- `Logger.log(level, message, ...args)`: the suppression gate, then the
formatted console line.  `now` is the `new Date().toISOString()`
timestamp. -/
def consoleLog (ctx : Ctx) (module : String) (level : LogLevel)
    (message : String) (args : List JSVal) (now : String) :
    Option ConsoleRecord :=
  if shouldLog ctx level then
    some ⟨now, level, module, message, formatArgs ctx args,
      (activeConfig ctx.nodeEnv).colorize, level = .ERROR⟩
  else none

/-- The state of a `Logger` façade instance: the module name and the
structured backend when one was attached at construction. -/
structure LoggerState where
  module : String
  structuredLogger : Option SLoggerState

/-- `new Logger(module)`: attach the structured backend iff the code runs
server-side and the active configuration has `useStructured`. -/
def mkLogger (ctx : Ctx) (module : String) : LoggerState :=
  ⟨module,
    if ctx.isServer && (activeConfig ctx.nodeEnv).useStructured then
      some (mkStructuredLogger module [])
    else none⟩

/-- The structured level each façade method uses. -/
def toSLevel : LogLevel → SLogLevel
  | .DEBUG => .debug
  | .INFO => .info
  | .WARN => .warn
  | .ERROR => .error

/-- What one façade call emits. -/
inductive Emission where
  | console (r : ConsoleRecord)
  | structured (r : SRecord)

/-- One public façade call (`debug`/`info`/`warn`/`error`): with a
structured backend, `this.structuredLogger.<level>(message, {}, ...args)`;
otherwise `this.log(level, message, ...args)` on the console backend. -/
def facadeLog (ctx : Ctx) (st : LoggerState) (level : LogLevel)
    (message : String) (args : List JSVal) (now : String) :
    Option Emission × LoggerState :=
  match st.structuredLogger with
  | some sl =>
    let (rec?, sl2) := structuredEmit ctx sl (toSLevel level) message (some []) args
    (rec?.map .structured, { st with structuredLogger := some sl2 })
  | none =>
    ((consoleLog ctx st.module level message args now).map .console, st)


/-! ## Observation helpers

Decidable projections used to state properties of concrete outputs. -/

/-- Whether `pat` occurs as a contiguous substring of `l`. -/
def containsSub (pat : List Char) : List Char → Bool
  | [] => pat.isEmpty
  | c :: cs => pat.isPrefixOf (c :: cs) || containsSub pat cs

/-- Whether `pat` occurs as a substring of `s`. -/
def strContains (s pat : String) : Bool :=
  containsSub pat.data s.data

/-- The string stored under key `k` of an object value, if any. -/
def getKeyStr (v : JSVal) (k : String) : Option String :=
  match v with
  | .obj e =>
    match e.find? (fun p => p.1 == k) with
    | some (_, .str s) => some s
    | _ => none
  | _ => none

/-- The keys of an object entry list, in order. -/
def keysOf (e : List (String × JSVal)) : List String :=
  e.map Prod.fst

mutual

/-- Whether the string `t` occurs as a string leaf somewhere in `v`
(search over the constructors sanitizer outputs are built from). -/
def containsStrVal (t : String) (v : JSVal) : Bool :=
  match v with
  | .str s => s == t
  | .arr l => containsStrList t l
  | .obj e => containsStrEntries t e
  | _ => false
termination_by sizeOf v

/-- `containsStrVal` over a list of values. -/
def containsStrList (t : String) (l : List JSVal) : Bool :=
  match l with
  | [] => false
  | v :: rest => containsStrVal t v || containsStrList t rest
termination_by sizeOf l

/-- `containsStrVal` over entry values. -/
def containsStrEntries (t : String) (l : List (String × JSVal)) : Bool :=
  match l with
  | [] => false
  | (_, v) :: rest => containsStrVal t v || containsStrEntries t rest
termination_by sizeOf l

end

/-- Whether the rule matches anywhere in the scanned text (`prev` is the
character before the text). -/
def hasMatchAux (r : SensitivePattern) : Option Char → List Char → Bool
  | _, [] => false
  | prev, c :: cs => (r.tryAt prev (c :: cs)).isSome || hasMatchAux r (some c) cs

/-- Whether the rule matches somewhere in `s` (scanning from the string
start, as a fresh regex would). -/
def hasMatch (r : SensitivePattern) (s : String) : Bool :=
  hasMatchAux r none s.data

/-- The bearer rule, for statements singling it out. -/
def bearerRule : SensitivePattern := ⟨bearerTry, bearerRepl, "Bearer tokens"⟩

/-- The output of the bearer rule alone on `s`. -/
def bearerPass (s : String) : String :=
  String.mk (runRepl bearerRule none s.data)


/-! ## Shared concrete contexts -/

/-- A server-side production process with an empty heap. -/
def ctxProd : Ctx := ⟨[], "production", true⟩

/-- A client-side development process with an empty heap. -/
def ctxDev : Ctx := ⟨[], "development", false⟩

/-! ## List and character-class lemmas for the no-bearer-match invariant

Infrastructure for the C9 analysis: the bearer pass removes every bearer
match, and each later pass preserves the absence of bearer matches.  The
key combinatorial fact is a transport lemma: every replacement diverges
from the original text at a blocking character (`[` or `"`) that can occur
in no component of a bearer match, so replacing a matched region never
creates a new bearer match. -/

theorem cl_cons (p : Char → Bool) (c : Char) (l : List Char) :
    countLeading p (c :: l) = if p c then countLeading p l + 1 else 0 := by
  by_cases h : p c <;> simp [countLeading, List.takeWhile_cons, h]

theorem cl_le_length (p : Char → Bool) (l : List Char) :
    countLeading p l ≤ l.length := by
  induction l with
  | nil => simp [countLeading]
  | cons c cs ih =>
    rw [cl_cons]
    by_cases h : p c
    · rw [if_pos h, List.length_cons]; omega
    · rw [if_neg h]; omega

theorem cl_stop (p : Char → Bool) (u v : List Char)
    (h : countLeading p u < u.length) :
    countLeading p (u ++ v) = countLeading p u := by
  induction u with
  | nil => simp [countLeading] at h
  | cons c cs ih =>
    rw [cl_cons] at h
    rw [List.cons_append, cl_cons, cl_cons]
    by_cases hc : p c
    · rw [if_pos hc] at h
      rw [if_pos hc, if_pos hc]
      rw [List.length_cons] at h
      rw [ih (by omega)]
    · rw [if_neg hc, if_neg hc]

theorem cl_full (p : Char → Bool) (u v : List Char)
    (h : countLeading p u = u.length) :
    countLeading p (u ++ v) = u.length + countLeading p v := by
  induction u with
  | nil => simp [countLeading]
  | cons c cs ih =>
    rw [cl_cons] at h
    rw [List.cons_append, cl_cons]
    by_cases hc : p c
    · rw [if_pos hc] at h
      rw [if_pos hc]
      rw [List.length_cons] at h
      rw [ih (by omega), List.length_cons]
      omega
    · rw [if_neg hc] at h
      rw [List.length_cons] at h
      omega

theorem cl_all (p : Char → Bool) (u : List Char)
    (h : u.all p = true) : countLeading p u = u.length := by
  induction u with
  | nil => simp [countLeading]
  | cons c cs ih =>
    simp only [List.all_cons, Bool.and_eq_true] at h
    rw [cl_cons, if_pos h.1, ih h.2, List.length_cons]

theorem take_cl (p : Char → Bool) (l : List Char) :
    l.take (countLeading p l) = l.takeWhile p := by
  induction l with
  | nil => rfl
  | cons c cs ih =>
    rw [cl_cons, List.takeWhile_cons]
    by_cases h : p c
    · rw [if_pos h, if_pos h, List.take_succ_cons, ih]
    · rw [if_neg h, if_neg h, List.take_zero]

theorem drop_cl (p : Char → Bool) (l : List Char) :
    l.drop (countLeading p l) = l.dropWhile p := by
  induction l with
  | nil => rfl
  | cons c cs ih =>
    rw [cl_cons, List.dropWhile_cons]
    by_cases h : p c
    · rw [if_pos h, if_pos h, List.drop_succ_cons, ih]
    · rw [if_neg h, if_neg h, List.drop_zero]

theorem all_takeWhile (p : Char → Bool) (l : List Char) :
    (l.takeWhile p).all p = true := by
  induction l with
  | nil => rfl
  | cons c cs ih =>
    rw [List.takeWhile_cons]
    by_cases h : p c
    · rw [if_pos h]; simp [h, ih]
    · rw [if_neg h]; rfl

theorem cl_take_all (p : Char → Bool) (l : List Char) :
    (l.take (countLeading p l)).all p = true := by
  rw [take_cl]; exact all_takeWhile p l

theorem cl_all_hit (p : Char → Bool) :
    ∀ (A : List Char) (b : Char) (r : List Char),
    A.length < countLeading p (A ++ b :: r) → p b = true := by
  intro A
  induction A with
  | nil =>
    intro b r h
    rw [List.nil_append, cl_cons] at h
    by_cases hb : p b
    · exact hb
    · rw [if_neg hb] at h; omega
  | cons a A2 ih =>
    intro b r h
    rw [List.cons_append, cl_cons] at h
    by_cases ha : p a
    · rw [if_pos ha] at h
      rw [List.length_cons] at h
      exact ih b r (by omega)
    · rw [if_neg ha] at h
      rw [List.length_cons] at h
      omega

theorem ci_hit (lit : List Char) :
    ∀ (A : List Char) (b : Char) (r : List Char),
    isPrefixCI lit (A ++ b :: r) = true → A.length < lit.length →
    (lit.getD A.length ' ').toLower = b.toLower := by
  induction lit with
  | nil => intro A b r _ hl; simp at hl
  | cons a as ih =>
    intro A b r h hl
    match A with
    | [] =>
      simp only [List.nil_append, isPrefixCI, Bool.and_eq_true,
        beq_iff_eq] at h
      simpa using h.1
    | a2 :: A2 =>
      simp only [List.cons_append, isPrefixCI, Bool.and_eq_true] at h
      have hih := ih A2 b r h.2
        (by rw [List.length_cons, List.length_cons] at hl; omega)
      simpa using hih

theorem ci_len (lit : List Char) :
    ∀ l, isPrefixCI lit l = true → lit.length ≤ l.length := by
  induction lit with
  | nil => intro l _; simp
  | cons a as ih =>
    intro l h
    match l with
    | [] => simp [isPrefixCI] at h
    | b :: bs =>
      simp only [isPrefixCI, Bool.and_eq_true] at h
      have := ih bs h.2
      simp only [List.length_cons]
      omega

theorem ci_take_eq (lit : List Char) : ∀ l l2 : List Char,
    isPrefixCI lit l = true →
    l.take lit.length = l2.take lit.length → isPrefixCI lit l2 = true := by
  induction lit with
  | nil => intro l l2 _ _; rfl
  | cons a as ih =>
    intro l l2 h he
    match l, l2 with
    | [], _ => simp [isPrefixCI] at h
    | b :: bs, [] =>
      simp [List.length_cons, List.take_succ_cons] at he
    | b :: bs, c :: cs =>
      simp only [List.length_cons, List.take_succ_cons,
        List.cons.injEq] at he
      simp only [isPrefixCI, Bool.and_eq_true] at h ⊢
      exact ⟨by rw [← he.1]; exact h.1, ih bs cs h.2 he.2⟩

theorem cs_decomp (lit : List Char) : ∀ l, isPrefixCS lit l = true →
    l = lit ++ l.drop lit.length := by
  induction lit with
  | nil => intro l _; rfl
  | cons a as ih =>
    intro l h
    match l with
    | [] => simp [isPrefixCS] at h
    | b :: bs =>
      simp only [isPrefixCS, Bool.and_eq_true, beq_iff_eq] at h
      have h2 := ih bs h.2
      calc b :: bs = b :: (as ++ bs.drop as.length) := by rw [← h2]
        _ = (a :: as) ++ (b :: bs).drop (a :: as).length := by
            rw [h.1]; rfl

theorem drop_app_le (A B : List Char) (i : Nat) (h : i ≤ A.length) :
    (A ++ B).drop i = A.drop i ++ B := by
  induction A generalizing i with
  | nil =>
    have : i = 0 := by simpa using h
    subst this; rfl
  | cons a A2 ih =>
    match i with
    | 0 => rfl
    | i + 1 =>
      rw [List.cons_append, List.drop_succ_cons, List.drop_succ_cons]
      exact ih i (by rw [List.length_cons] at h; omega)

theorem take_app_le (A B : List Char) (i : Nat) (h : i ≤ A.length) :
    (A ++ B).take i = A.take i := by
  induction A generalizing i with
  | nil =>
    have : i = 0 := by simpa using h
    subst this; rfl
  | cons a A2 ih =>
    match i with
    | 0 => rfl
    | i + 1 =>
      rw [List.cons_append, List.take_succ_cons, List.take_succ_cons]
      rw [ih i (by rw [List.length_cons] at h; omega)]

theorem take_app_len (A Z : List Char) : (A ++ Z).take A.length = A := by
  rw [take_app_le A Z A.length (Nat.le_refl _), List.take_length]

theorem drop_app_len (A Z : List Char) : (A ++ Z).drop A.length = Z := by
  rw [drop_app_le A Z A.length (Nat.le_refl _), List.drop_length,
    List.nil_append]

theorem drop_app_add (A Z : List Char) (i : Nat) :
    (A ++ Z).drop (A.length + i) = Z.drop i := by
  induction A with
  | nil => simp
  | cons a A2 ih =>
    have he : (a :: A2).length + i = (A2.length + i) + 1 := by
      rw [List.length_cons]; omega
    rw [he, List.cons_append, List.drop_succ_cons, ih]

theorem drop_ne_nil (l : List Char) (n : Nat) (h : n < l.length) :
    l.drop n ≠ [] := by
  intro hc
  have h2 := congrArg List.length hc
  rw [List.length_drop, List.length_nil] at h2
  omega

/-- Every character is either fixed by `toLower` or an ASCII capital
`Char.ofNat n` with `65 ≤ n ≤ 90`; the capitals can then be enumerated. -/
theorem toLower_char_cases (c : Char) :
    c.toLower = c ∨ ∃ n, 65 ≤ n ∧ n ≤ 90 ∧ c = Char.ofNat n := by
  by_cases h : Char.toNat c ≥ 65 ∧ Char.toNat c ≤ 90
  · exact Or.inr ⟨Char.toNat c, h.1, h.2, (Char.ofNat_toNat c).symm⟩
  · refine Or.inl ?_
    show (if Char.toNat c ≥ 65 ∧ Char.toNat c ≤ 90 then
      Char.ofNat (Char.toNat c + 32) else c) = c
    exact if_neg h

/-- `toLower`-equal characters agree on membership in the token class. -/
theorem tok_congr (a b : Char) (h : a.toLower = b.toLower)
    (ha : isTokenChar a = true) : isTokenChar b = true := by
  rcases toLower_char_cases a with ha1 | ⟨n, hn1, hn2, rfl⟩ <;>
    rcases toLower_char_cases b with hb1 | ⟨m, hm1, hm2, rfl⟩
  · rw [ha1, hb1] at h; exact h ▸ ha
  · interval_cases m <;> decide
  · rw [hb1] at h
    rw [← h]
    interval_cases n <;> decide
  · interval_cases m <;> decide

theorem ws_elim (c : Char) (h : isWsChar c = true) :
    c = ' ' ∨ c = '\t' ∨ c = '\n' ∨ c = '\x0d' ∨ c = '\x0b' ∨
      c = '\x0c' := by
  simp only [isWsChar, Bool.or_eq_true, decide_eq_true_eq] at h
  tauto

theorem toLower_b_not_ws (c : Char) (h : c.toLower = 'b') :
    isWsChar c = false := by
  by_contra hca
  rw [Bool.not_eq_false] at hca
  rcases ws_elim c hca with h1 | h1 | h1 | h1 | h1 | h1 <;>
    rw [h1] at h <;> revert h <;> decide

theorem toLower_b_token (c : Char) (h : c.toLower = 'b') :
    isTokenChar c = true :=
  tok_congr 'b' c (by rw [h]; decide) (by decide)

theorem tok_not_ws (c : Char) (h : isTokenChar c = true) :
    isWsChar c = false := by
  by_contra hca
  rw [Bool.not_eq_false] at hca
  rcases ws_elim c hca with h1 | h1 | h1 | h1 | h1 | h1 <;>
    rw [h1] at h <;> revert h <;> decide

theorem ws_not_tok (c : Char) (h : isWsChar c = true) :
    isTokenChar c = false := by
  rcases ws_elim c h with h1 | h1 | h1 | h1 | h1 | h1 <;>
    subst h1 <;> decide

theorem quote_elim (c : Char) (h : isQuoteChar c = true) :
    c = '"' ∨ c = squote := by
  simp only [isQuoteChar, Bool.or_eq_true, decide_eq_true_eq] at h
  exact h

theorem quote_not_tok (c : Char) (h : isQuoteChar c = true) :
    isTokenChar c = false := by
  rcases quote_elim c h with h1 | h1 <;> subst h1 <;> decide

theorem quote_not_b (c : Char) (h : isQuoteChar c = true) :
    ('b' == c.toLower) = false := by
  rcases quote_elim c h with h1 | h1 <;> subst h1 <;> decide

/-! ## Bearer-matcher basics -/

theorem bearer_lit : "bearer".toList = ['b', 'e', 'a', 'r', 'e', 'r'] := rfl

/-- The bearer matcher ignores the preceding character. -/
theorem hasMatchAux_bearer_prev (l : List Char) (p q : Option Char) :
    hasMatchAux bearerRule p l = hasMatchAux bearerRule q l := by
  cases l <;> rfl

theorem hasMatchAux_bearer_cons (q : Option Char) (c : Char)
    (cs : List Char) :
    hasMatchAux bearerRule q (c :: cs) =
      ((bearerTry none (c :: cs)).isSome ||
        hasMatchAux bearerRule (some c) cs) := rfl

theorem bearerTry_none_nil : bearerTry none [] = none := rfl

/-- The bearer matcher fails wherever the first character is not a `b` of
either case. -/
theorem bearerTry_head_ne (c : Char) (l : List Char)
    (h : ('b' == c.toLower) = false) : bearerTry none (c :: l) = none := by
  have h2 : isPrefixCI ['b', 'e', 'a', 'r', 'e', 'r'] (c :: l) = false := by
    simp only [isPrefixCI]
    rw [show ('b'.toLower) = 'b' from by decide, h, Bool.false_and]
  unfold bearerTry
  rw [bearer_lit]
  rw [if_neg (by rw [h2]; exact Bool.false_ne_true)]

/-- The bearer matcher fails at the head of the replacement block: the
whitespace run is exactly the one space, and `[` is not a token
character. -/
theorem bearerTry_block (junk : List Char) :
    bearerTry none
      ('B' :: 'e' :: 'a' :: 'r' :: 'e' :: 'r' :: ' ' :: '[' :: junk)
      = none := rfl

/-- A match-free scan fails at every suffix position. -/
theorem noB_drop (l : List Char) :
    ∀ (q : Option Char), hasMatchAux bearerRule q l = false →
    ∀ i, bearerTry none (l.drop i) = none := by
  induction l with
  | nil => intro q _ i; rw [List.drop_nil]; exact bearerTry_none_nil
  | cons c cs ih =>
    intro q h i
    rw [hasMatchAux_bearer_cons, Bool.or_eq_false_iff] at h
    match i with
    | 0 =>
      rw [List.drop_zero]
      cases hb : bearerTry none (c :: cs) with
      | none => rfl
      | some n =>
        rw [hb] at h
        exact absurd h.1 (by simp)
    | i + 1 =>
      rw [List.drop_succ_cons]
      exact ih (some c) h.2 i

/-- A match-free list stays match-free after dropping a prefix. -/
theorem noB_suffix (l : List Char) :
    ∀ q, hasMatchAux bearerRule q l = false →
    ∀ k, hasMatchAux bearerRule none (l.drop k) = false := by
  induction l with
  | nil => intro q _ k; rw [List.drop_nil]; rfl
  | cons c cs ih =>
    intro q h k
    rw [hasMatchAux_bearer_cons, Bool.or_eq_false_iff] at h
    match k with
    | 0 =>
      rw [List.drop_zero, hasMatchAux_bearer_cons, Bool.or_eq_false_iff]
      exact h
    | k + 1 =>
      rw [List.drop_succ_cons]
      exact ih (some c) h.2 k

/-- A segment without a `b` of either case contributes no bearer-match
positions. -/
theorem noB_seg : ∀ (seg : List Char),
    seg.all (fun c => !('b' == c.toLower)) = true →
    ∀ (q : Option Char) (z : List Char),
    hasMatchAux bearerRule q (seg ++ z) = hasMatchAux bearerRule none z := by
  intro seg
  induction seg with
  | nil =>
    intro _ q z
    rw [List.nil_append]
    exact hasMatchAux_bearer_prev z q none
  | cons c seg2 ih =>
    intro hs q z
    simp only [List.all_cons, Bool.and_eq_true] at hs
    rw [List.cons_append, hasMatchAux_bearer_cons,
      bearerTry_head_ne c _ (by simpa using hs.1)]
    simp only [Option.isSome_none, Bool.false_or]
    exact ih hs.2 (some c) z

/-- A concatenation is match-free if the matcher fails at every position
of the first part (with the second part appended) and the second part is
match-free. -/
theorem hasMatch_compose : ∀ (U V : List Char) (q : Option Char),
    (∀ i, i < U.length → bearerTry none (U.drop i ++ V) = none) →
    hasMatchAux bearerRule none V = false →
    hasMatchAux bearerRule q (U ++ V) = false := by
  intro U
  induction U with
  | nil =>
    intro V q _ hV
    rw [List.nil_append, hasMatchAux_bearer_prev V q none]
    exact hV
  | cons u U2 ih =>
    intro V q hU hV
    rw [List.cons_append, hasMatchAux_bearer_cons, Bool.or_eq_false_iff]
    constructor
    · have h0 := hU 0 (by rw [List.length_cons]; omega)
      rw [List.drop_zero, List.cons_append] at h0
      rw [h0]
      rfl
    · refine ih V (some u) (fun i h => ?_) hV
      have := hU (i + 1) (by rw [List.length_cons]; omega)
      rwa [List.drop_succ_cons] at this

/-- A successful probe anywhere yields a match. -/
theorem hasMatch_of_app : ∀ (u M : List Char) (q : Option Char),
    M ≠ [] → (bearerTry none M).isSome = true →
    hasMatchAux bearerRule q (u ++ M) = true := by
  intro u
  induction u with
  | nil =>
    intro M q hM hb
    match M with
    | m :: M2 =>
      rw [List.nil_append, hasMatchAux_bearer_cons, hb, Bool.true_or]
  | cons a u2 ih =>
    intro M q hM hb
    rw [List.cons_append, hasMatchAux_bearer_cons, ih M (some a) hM hb,
      Bool.or_true]

/-! ## Transport lemmas

A bearer match consists of six characters case-insensitively equal to
`bearer`, a nonempty whitespace run and a nonempty token run.  A blocking
character — one that is none of these — therefore cannot lie inside a
match; if the text beyond a common prefix is replaced and the replacement
diverges at a blocking character, a match of the replaced text at
position 0 forces a match of the original text at position 0. -/

theorem bearerTry_some_parts (y : List Char) (k : Nat)
    (h : bearerTry none y = some k) :
    isPrefixCI "bearer".toList y = true ∧
    0 < countLeading isWsChar (y.drop 6) ∧
    0 < countLeading isTokenChar
        ((y.drop 6).drop (countLeading isWsChar (y.drop 6))) := by
  simp only [bearerTry] at h
  split_ifs at h with h1 h2 h3
  all_goals
    first
      | exact Option.noConfusion h
      | exact ⟨h1, by omega, by omega⟩

theorem bearerTry_build (x : List Char)
    (h1 : isPrefixCI "bearer".toList x = true)
    (h2 : ¬ countLeading isWsChar (x.drop 6) = 0)
    (h3 : ¬ countLeading isTokenChar
        ((x.drop 6).drop (countLeading isWsChar (x.drop 6))) = 0) :
    bearerTry none x ≠ none := by
  simp only [bearerTry]
  rw [if_pos h1, if_neg h2, if_neg h3]
  simp

/-- Generic transport: if the original `PP ++ xs` has no bearer match at
position 0, neither has `PP ++ b :: junk` for a blocking character `b`. -/
theorem bearer_transport (PP xs junk : List Char) (b : Char)
    (hb : b = '[' ∨ b = '"')
    (hx : bearerTry none (PP ++ xs) = none) :
    bearerTry none (PP ++ b :: junk) = none := by
  by_contra hy
  obtain ⟨k, hk⟩ : ∃ k, bearerTry none (PP ++ b :: junk) = some k := by
    cases hc : bearerTry none (PP ++ b :: junk) with
    | none => exact absurd hc hy
    | some k => exact ⟨k, rfl⟩
  obtain ⟨hpre, hw, ht⟩ := bearerTry_some_parts _ k hk
  have hb_ws : isWsChar b = false := by
    rcases hb with rfl | rfl <;> decide
  have hb_tok : isTokenChar b = false := by
    rcases hb with rfl | rfl <;> decide
  have hD6 : 6 ≤ PP.length := by
    by_contra hlt
    push_neg at hlt
    have hhit := ci_hit "bearer".toList PP b junk hpre
      (by rw [show ("bearer".toList).length = 6 from by decide]; exact hlt)
    revert hhit
    revert hlt
    generalize PP.length = D
    intro hlt hhit
    revert hhit
    rcases hb with rfl | rfl <;> (interval_cases D <;> decide)
  have hy6 : (PP ++ b :: junk).drop 6 = PP.drop 6 ++ b :: junk :=
    drop_app_le PP (b :: junk) 6 hD6
  rw [hy6] at hw ht
  have hwA : countLeading isWsChar (PP.drop 6 ++ b :: junk) ≤
      (PP.drop 6).length := by
    by_contra hgt
    push_neg at hgt
    have hws := cl_all_hit isWsChar (PP.drop 6) b junk hgt
    simp [hb_ws] at hws
  have hwA2 : countLeading isWsChar (PP.drop 6 ++ b :: junk) <
      (PP.drop 6).length := by
    rcases Nat.lt_or_ge (countLeading isWsChar (PP.drop 6 ++ b :: junk))
      (PP.drop 6).length with hlt | hge
    · exact hlt
    · exfalso
      have heq : countLeading isWsChar (PP.drop 6 ++ b :: junk) =
          (PP.drop 6).length := Nat.le_antisymm hwA hge
      rw [heq, drop_app_len, cl_cons, if_neg (by simp [hb_tok])] at ht
      omega
  have hcl_A : countLeading isWsChar (PP.drop 6) =
      countLeading isWsChar (PP.drop 6 ++ b :: junk) := by
    rcases Nat.lt_or_ge (countLeading isWsChar (PP.drop 6))
      (PP.drop 6).length with hlt | hge
    · exact (cl_stop isWsChar (PP.drop 6) (b :: junk) hlt).symm
    · exfalso
      have heq : countLeading isWsChar (PP.drop 6) = (PP.drop 6).length :=
        Nat.le_antisymm (cl_le_length _ _) hge
      have := cl_full isWsChar (PP.drop 6) (b :: junk) heq
      omega
  have hwx : countLeading isWsChar (PP.drop 6 ++ xs) =
      countLeading isWsChar (PP.drop 6 ++ b :: junk) := by
    rw [cl_stop isWsChar (PP.drop 6) xs (by omega), hcl_A]
  obtain ⟨c0, A3, hc0⟩ : ∃ c0 A3,
      (PP.drop 6).drop (countLeading isWsChar (PP.drop 6 ++ b :: junk)) =
        c0 :: A3 := by
    cases hc : (PP.drop 6).drop
        (countLeading isWsChar (PP.drop 6 ++ b :: junk)) with
    | nil => exact absurd hc (drop_ne_nil _ _ hwA2)
    | cons c0 A3 => exact ⟨c0, A3, rfl⟩
  have hdropy : (PP.drop 6 ++ b :: junk).drop
      (countLeading isWsChar (PP.drop 6 ++ b :: junk)) =
      c0 :: (A3 ++ b :: junk) := by
    rw [drop_app_le (PP.drop 6) (b :: junk) _ (Nat.le_of_lt hwA2), hc0,
      List.cons_append]
  have htok_c0 : isTokenChar c0 = true := by
    rw [hdropy, cl_cons] at ht
    by_cases hc : isTokenChar c0
    · exact hc
    · rw [if_neg hc] at ht; omega
  have hdropx : (PP.drop 6 ++ xs).drop
      (countLeading isWsChar (PP.drop 6 ++ xs)) = c0 :: (A3 ++ xs) := by
    rw [hwx, drop_app_le (PP.drop 6) xs _ (Nat.le_of_lt hwA2), hc0,
      List.cons_append]
  have htx : ¬ countLeading isTokenChar ((PP.drop 6 ++ xs).drop
      (countLeading isWsChar (PP.drop 6 ++ xs))) = 0 := by
    rw [hdropx, cl_cons, if_pos htok_c0]
    omega
  have hpx : isPrefixCI "bearer".toList (PP ++ xs) = true := by
    refine ci_take_eq "bearer".toList (PP ++ b :: junk) (PP ++ xs) hpre ?_
    rw [show ("bearer".toList).length = 6 from by decide]
    rw [take_app_le PP (b :: junk) 6 hD6, take_app_le PP xs 6 hD6]
  have hx6 : (PP ++ xs).drop 6 = PP.drop 6 ++ xs :=
    drop_app_le PP xs 6 hD6
  exact bearerTry_build (PP ++ xs) hpx (by rw [hx6]; omega)
    (by rw [hx6]; exact htx) hx

/-- Transport for the bearer rule's own replacement: the block
`Bearer [` agrees with a real match case-insensitively on the first seven
characters and then blocks at `[`, so it creates no match either. -/
theorem bearer_transport_self (PP xs junk : List Char) (c0 : Char)
    (cs0 : List Char) (hxs : xs = c0 :: cs0) (hc0 : c0.toLower = 'b')
    (hx : bearerTry none (PP ++ xs) = none) :
    bearerTry none
      (PP ++ 'B' :: 'e' :: 'a' :: 'r' :: 'e' :: 'r' :: ' ' :: '[' :: junk)
      = none := by
  by_contra hy
  obtain ⟨k, hk⟩ : ∃ k, bearerTry none
      (PP ++ 'B' :: 'e' :: 'a' :: 'r' :: 'e' :: 'r' :: ' ' :: '[' :: junk)
      = some k := by
    cases hc : bearerTry none
        (PP ++ 'B' :: 'e' :: 'a' :: 'r' :: 'e' :: 'r' :: ' ' :: '[' ::
          junk) with
    | none => exact absurd hc hy
    | some k => exact ⟨k, rfl⟩
  obtain ⟨hpre, hw, ht⟩ := bearerTry_some_parts _ k hk
  have hD6 : 6 ≤ PP.length := by
    by_contra hlt
    push_neg at hlt
    rcases Nat.eq_zero_or_pos PP.length with hD0 | hD1
    · have hPP : PP = [] := List.length_eq_zero.mp hD0
      rw [hPP, List.nil_append, bearerTry_block junk] at hk
      exact absurd hk (by simp)
    · have hhit := ci_hit "bearer".toList PP 'B'
        ('e' :: 'a' :: 'r' :: 'e' :: 'r' :: ' ' :: '[' :: junk) hpre
        (by rw [show ("bearer".toList).length = 6 from by decide]; exact hlt)
      revert hhit
      revert hD1
      revert hlt
      generalize PP.length = D
      intro hlt hD1 hhit
      revert hhit
      interval_cases D <;> decide
  have hy6 : (PP ++ 'B' :: 'e' :: 'a' :: 'r' :: 'e' :: 'r' :: ' ' :: '[' ::
      junk).drop 6 = PP.drop 6 ++ 'B' :: 'e' :: 'a' :: 'r' :: 'e' :: 'r' ::
      ' ' :: '[' :: junk :=
    drop_app_le PP _ 6 hD6
  rw [hy6] at hw ht
  have hwA : countLeading isWsChar (PP.drop 6 ++ 'B' :: 'e' :: 'a' :: 'r' ::
      'e' :: 'r' :: ' ' :: '[' :: junk) ≤ (PP.drop 6).length := by
    by_contra hgt
    push_neg at hgt
    have hws := cl_all_hit isWsChar (PP.drop 6) 'B' _ hgt
    exact absurd hws (by decide)
  have hc0ws : isWsChar c0 = false := toLower_b_not_ws c0 hc0
  have hc0tok : isTokenChar c0 = true := toLower_b_token c0 hc0
  have hpx : isPrefixCI "bearer".toList (PP ++ xs) = true := by
    refine ci_take_eq "bearer".toList
      (PP ++ 'B' :: 'e' :: 'a' :: 'r' :: 'e' :: 'r' :: ' ' :: '[' :: junk)
      (PP ++ xs) hpre ?_
    rw [show ("bearer".toList).length = 6 from by decide]
    rw [take_app_le PP _ 6 hD6, take_app_le PP xs 6 hD6]
  have hx6 : (PP ++ xs).drop 6 = PP.drop 6 ++ xs :=
    drop_app_le PP xs 6 hD6
  rcases Nat.lt_or_ge (countLeading isWsChar (PP.drop 6 ++ 'B' :: 'e' ::
      'a' :: 'r' :: 'e' :: 'r' :: ' ' :: '[' :: junk)) (PP.drop 6).length
    with hwlt | hwge
  · -- the whitespace run stops strictly inside `PP`
    have hcl_A : countLeading isWsChar (PP.drop 6) =
        countLeading isWsChar (PP.drop 6 ++ 'B' :: 'e' :: 'a' :: 'r' ::
          'e' :: 'r' :: ' ' :: '[' :: junk) := by
      rcases Nat.lt_or_ge (countLeading isWsChar (PP.drop 6))
        (PP.drop 6).length with hlt | hge
      · exact (cl_stop isWsChar (PP.drop 6) _ hlt).symm
      · exfalso
        have heq : countLeading isWsChar (PP.drop 6) =
            (PP.drop 6).length := Nat.le_antisymm (cl_le_length _ _) hge
        have := cl_full isWsChar (PP.drop 6)
          ('B' :: 'e' :: 'a' :: 'r' :: 'e' :: 'r' :: ' ' :: '[' :: junk) heq
        omega
    have hwx : countLeading isWsChar (PP.drop 6 ++ xs) =
        countLeading isWsChar (PP.drop 6 ++ 'B' :: 'e' :: 'a' :: 'r' ::
          'e' :: 'r' :: ' ' :: '[' :: junk) := by
      rw [cl_stop isWsChar (PP.drop 6) xs (by omega), hcl_A]
    obtain ⟨c1, A3, hc1⟩ : ∃ c1 A3,
        (PP.drop 6).drop (countLeading isWsChar (PP.drop 6 ++ 'B' :: 'e' ::
          'a' :: 'r' :: 'e' :: 'r' :: ' ' :: '[' :: junk)) = c1 :: A3 := by
      cases hc : (PP.drop 6).drop (countLeading isWsChar (PP.drop 6 ++
          'B' :: 'e' :: 'a' :: 'r' :: 'e' :: 'r' :: ' ' :: '[' :: junk)) with
      | nil => exact absurd hc (drop_ne_nil _ _ hwlt)
      | cons c1 A3 => exact ⟨c1, A3, rfl⟩
    have hdropy : (PP.drop 6 ++ 'B' :: 'e' :: 'a' :: 'r' :: 'e' :: 'r' ::
        ' ' :: '[' :: junk).drop (countLeading isWsChar (PP.drop 6 ++
          'B' :: 'e' :: 'a' :: 'r' :: 'e' :: 'r' :: ' ' :: '[' :: junk)) =
        c1 :: (A3 ++ 'B' :: 'e' :: 'a' :: 'r' :: 'e' :: 'r' :: ' ' :: '[' ::
          junk) := by
      rw [drop_app_le (PP.drop 6) _ _ (Nat.le_of_lt hwlt), hc1,
        List.cons_append]
    have htok_c1 : isTokenChar c1 = true := by
      rw [hdropy, cl_cons] at ht
      by_cases hc : isTokenChar c1
      · exact hc
      · rw [if_neg hc] at ht; omega
    have hdropx : (PP.drop 6 ++ xs).drop
        (countLeading isWsChar (PP.drop 6 ++ xs)) = c1 :: (A3 ++ xs) := by
      rw [hwx, drop_app_le (PP.drop 6) xs _ (Nat.le_of_lt hwlt), hc1,
        List.cons_append]
    refine bearerTry_build (PP ++ xs) hpx (by rw [hx6]; omega) ?_ hx
    rw [hx6, hdropx, cl_cons, if_pos htok_c1]
    omega
  · -- the whitespace run covers all of `PP.drop 6`
    have heqw : countLeading isWsChar (PP.drop 6 ++ 'B' :: 'e' :: 'a' ::
        'r' :: 'e' :: 'r' :: ' ' :: '[' :: junk) = (PP.drop 6).length :=
      Nat.le_antisymm hwA hwge
    have hallA : countLeading isWsChar (PP.drop 6) =
        (PP.drop 6).length := by
      rcases Nat.lt_or_ge (countLeading isWsChar (PP.drop 6))
        (PP.drop 6).length with hlt | hge
      · exfalso
        have := cl_stop isWsChar (PP.drop 6)
          ('B' :: 'e' :: 'a' :: 'r' :: 'e' :: 'r' :: ' ' :: '[' :: junk) hlt
        omega
      · exact Nat.le_antisymm (cl_le_length _ _) hge
    have hwx : countLeading isWsChar (PP.drop 6 ++ xs) =
        (PP.drop 6).length := by
      rw [cl_full isWsChar (PP.drop 6) xs hallA, hxs, cl_cons,
        if_neg (by simp [hc0ws])]
      exact Nat.add_zero _
    have hdropx : (PP.drop 6 ++ xs).drop
        (countLeading isWsChar (PP.drop 6 ++ xs)) = xs := by
      rw [hwx, drop_app_len]
    refine bearerTry_build (PP ++ xs) hpx (by rw [hx6]; omega) ?_ hx
    rw [hx6, hdropx, hxs, cl_cons, if_pos hc0tok]
    omega

/-! ## Refinement of tails and the per-rule scan induction -/

/-- `V` is no worse than `W` under any prefix: wherever `PP ++ W` has no
bearer match at position 0, neither has `PP ++ V`. -/
def TailRefines (W V : List Char) : Prop :=
  ∀ PP : List Char, bearerTry none (PP ++ W) = none →
    bearerTry none (PP ++ V) = none

theorem tailRefines_refl (W : List Char) : TailRefines W W :=
  fun _ h => h

theorem tailRefines_cons (c : Char) (W V : List Char)
    (h : TailRefines W V) : TailRefines (c :: W) (c :: V) := by
  intro PP hp
  have h2 := h (PP ++ [c])
  rw [List.append_assoc, List.append_assoc, List.singleton_append,
    List.singleton_append] at h2
  exact h2 hp

theorem tailRefines_seg (S : List Char) (W V : List Char)
    (h : TailRefines W V) : TailRefines (S ++ W) (S ++ V) := by
  induction S with
  | nil => exact h
  | cons c S2 ih =>
    rw [List.cons_append, List.cons_append]
    exact tailRefines_cons c _ _ ih

/-- Anything diverging at a blocking character refines anything. -/
theorem tailRefines_blocker (b : Char) (hb : b = '[' ∨ b = '"')
    (xs junk : List Char) : TailRefines xs (b :: junk) :=
  fun PP hp => bearer_transport PP xs junk b hb hp

theorem isSome_false (o : Option Nat) (h : o.isSome = false) : o = none := by
  cases o with
  | none => rfl
  | some v => simp at h

theorem runReplF_cons_none (r : SensitivePattern) (fuel : Nat)
    (prev : Option Char) (c : Char) (cs : List Char)
    (h : r.tryAt prev (c :: cs) = none) :
    runReplF r (fuel + 1) prev (c :: cs) =
      c :: runReplF r fuel (some c) cs := by
  rw [runReplF, h]

theorem runReplF_cons_zero (r : SensitivePattern) (fuel : Nat)
    (prev : Option Char) (c : Char) (cs : List Char)
    (h : r.tryAt prev (c :: cs) = some 0) :
    runReplF r (fuel + 1) prev (c :: cs) =
      c :: runReplF r fuel (some c) cs := by
  rw [runReplF, h]

theorem runReplF_cons_some (r : SensitivePattern) (fuel : Nat)
    (prev : Option Char) (c : Char) (cs : List Char) (n : Nat)
    (h : r.tryAt prev (c :: cs) = some (n + 1)) :
    runReplF r (fuel + 1) prev (c :: cs) =
      r.repl ((c :: cs).take (n + 1)) ++
        runReplF r fuel (((c :: cs).take (n + 1)).getLast?)
          ((c :: cs).drop (n + 1)) := by
  rw [runReplF, h]

/-- Master induction for a rule's replacement scan: if each replacement
refines the text it replaces (`hTR`) and, when the scanned text is
match-free, the replacement block followed by a match-free continuation
is match-free (`hOK`), then the whole scan refines its input and
preserves match-freeness. -/
theorem refines_of_rule (r : SensitivePattern)
    (hTR : ∀ prev (l : List Char) n (rec : List Char),
      r.tryAt prev l = some (n + 1) → TailRefines (l.drop (n + 1)) rec →
      TailRefines l (r.repl (l.take (n + 1)) ++ rec))
    (hOK : ∀ prev (l : List Char) n (rec : List Char),
      r.tryAt prev l = some (n + 1) →
      hasMatchAux bearerRule none l = false →
      hasMatchAux bearerRule none rec = false →
      TailRefines (l.drop (n + 1)) rec →
      hasMatchAux bearerRule none (r.repl (l.take (n + 1)) ++ rec) = false) :
    ∀ fuel prev l, TailRefines l (runReplF r fuel prev l) ∧
      (hasMatchAux bearerRule none l = false →
       hasMatchAux bearerRule none (runReplF r fuel prev l) = false) := by
  intro fuel
  induction fuel with
  | zero => intro prev l; exact ⟨tailRefines_refl l, fun h => h⟩
  | succ fuel ih =>
    intro prev l
    match l with
    | [] => exact ⟨tailRefines_refl [], fun h => h⟩
    | c :: cs =>
      by_cases hksome : ∃ n, r.tryAt prev (c :: cs) = some (n + 1)
      · obtain ⟨n, htry⟩ := hksome
        rw [runReplF_cons_some r fuel prev c cs n htry]
        have hih := ih (((c :: cs).take (n + 1)).getLast?)
          ((c :: cs).drop (n + 1))
        constructor
        · exact hTR prev (c :: cs) n _ htry hih.1
        · intro hl
          have hdrop : hasMatchAux bearerRule none
              ((c :: cs).drop (n + 1)) = false :=
            noB_suffix (c :: cs) none hl (n + 1)
          exact hOK prev (c :: cs) n _ htry hl (hih.2 hdrop) hih.1
      · have hred : runReplF r (fuel + 1) prev (c :: cs) =
            c :: runReplF r fuel (some c) cs := by
          rcases htry : r.tryAt prev (c :: cs) with _ | m
          · exact runReplF_cons_none r fuel prev c cs htry
          · match m with
            | 0 => exact runReplF_cons_zero r fuel prev c cs htry
            | m + 1 => exact absurd ⟨m, htry⟩ hksome
        rw [hred]
        have hih := ih (some c) cs
        constructor
        · exact tailRefines_cons c cs _ hih.1
        · intro hl
          rw [hasMatchAux_bearer_cons, Bool.or_eq_false_iff] at hl
          have hcs : hasMatchAux bearerRule none cs = false := by
            rw [hasMatchAux_bearer_prev cs none (some c)]
            exact hl.2
          rw [hasMatchAux_bearer_cons, Bool.or_eq_false_iff]
          constructor
          · have htr := hih.1 [c]
            rw [List.singleton_append, List.singleton_append] at htr
            rw [htr (isSome_false _ hl.1)]
            rfl
          · rw [hasMatchAux_bearer_prev _ (some c) none]
            exact hih.2 hcs

/-! ## Per-rule replacement shapes -/

theorem drop_drop_my (l : List Char) : ∀ a b : Nat,
    (l.drop a).drop b = l.drop (a + b) := by
  induction l with
  | nil => intro a b; simp
  | cons c cs ih =>
    intro a b
    match a with
    | 0 => rw [List.drop_zero, Nat.zero_add]
    | a + 1 =>
      have he : a + 1 + b = (a + b) + 1 := by omega
      rw [he, List.drop_succ_cons, List.drop_succ_cons, ih a b]

/-- The connection-string replacement is a prefix of the match, then the
blocker `[`, then a suffix of the match. -/
theorem pgRepl_shape (m : List Char) :
    ∃ K K2 : Nat,
      pgRepl m = m.take K ++ ("[REDACTED]".toList ++ m.drop K2) := by
  refine ⟨13 + countLeading (fun d => !(d = ':')) (m.drop 13) + 1,
    13 + (countLeading (fun d => !(d = ':')) (m.drop 13) + 1 +
      countLeading (fun d => !(d = '@'))
        ((m.drop 13).drop
          (countLeading (fun d => !(d = ':')) (m.drop 13) + 1))), ?_⟩
  simp only [pgRepl]
  rw [drop_drop_my, drop_drop_my, List.append_assoc]

theorem rltrF_nil (fuel : Nat) : replaceLongTokenRunsF fuel [] = [] := by
  cases fuel <;> rfl

theorem rltrF_cons_nontok (fuel : Nat) (c : Char) (cs : List Char)
    (h : isTokenChar c = false) :
    replaceLongTokenRunsF (fuel + 1) (c :: cs) =
      c :: replaceLongTokenRunsF fuel cs := by
  rw [replaceLongTokenRunsF, if_neg (by simp [h])]

theorem rltrF_cons_tok (fuel : Nat) (c : Char) (cs : List Char)
    (h : isTokenChar c = true) :
    replaceLongTokenRunsF (fuel + 1) (c :: cs) =
      (if 15 ≤ countLeading isTokenChar cs then "[REDACTED]".toList
        else c :: cs.take (countLeading isTokenChar cs)) ++
        replaceLongTokenRunsF fuel
          (cs.drop (countLeading isTokenChar cs)) := by
  rw [replaceLongTokenRunsF, if_pos h]

/-- The inner scan of the generic-API-key replacement refines its input:
kept characters are kept, and each `[REDACTED]` block starts with the
blocker `[`. -/
theorem rltrF_tailRefines : ∀ (fuel : Nat) (m W V : List Char),
    TailRefines W V →
    TailRefines (m ++ W) (replaceLongTokenRunsF fuel m ++ V) := by
  intro fuel
  induction fuel with
  | zero => intro m W V h; exact tailRefines_seg m W V h
  | succ fuel ih =>
    intro m W V h
    match m with
    | [] =>
      rw [rltrF_nil]
      exact h
    | c :: cs =>
      by_cases hc : isTokenChar c
      · rw [rltrF_cons_tok fuel c cs hc]
        by_cases h15 : 15 ≤ countLeading isTokenChar cs
        · rw [if_pos h15]
          exact tailRefines_blocker '[' (Or.inl rfl) _ _
        · rw [if_neg h15]
          have hih := ih (cs.drop (countLeading isTokenChar cs)) W V h
          have hseg := tailRefines_seg
            (c :: cs.take (countLeading isTokenChar cs)) _ _ hih
          have halign : (c :: cs) ++ W =
              (c :: cs.take (countLeading isTokenChar cs)) ++
                (cs.drop (countLeading isTokenChar cs) ++ W) := by
            rw [List.cons_append, List.cons_append, ← List.append_assoc,
              List.take_append_drop]
          rw [halign, List.append_assoc]
          exact hseg
      · rw [rltrF_cons_nontok fuel c cs (by rwa [Bool.not_eq_true] at hc)]
        exact tailRefines_cons c _ _ (ih cs W V h)

/-- The inner scan preserves bearer-match-freeness. -/
theorem rltrF_ok : ∀ (fuel : Nat) (m W V : List Char),
    TailRefines W V →
    hasMatchAux bearerRule none V = false →
    hasMatchAux bearerRule none (m ++ W) = false →
    hasMatchAux bearerRule none (replaceLongTokenRunsF fuel m ++ V)
      = false := by
  intro fuel
  induction fuel with
  | zero =>
    intro m W V htr hV hmW
    refine hasMatch_compose m V none (fun i hi => ?_) hV
    have h0 := noB_drop (m ++ W) none hmW i
    rw [drop_app_le m W i (Nat.le_of_lt hi)] at h0
    exact htr (m.drop i) h0
  | succ fuel ih =>
    intro m W V htr hV hmW
    match m with
    | [] =>
      rw [rltrF_nil, List.nil_append]
      exact hV
    | c :: cs =>
      have hsuffix : hasMatchAux bearerRule none
          (cs.drop (countLeading isTokenChar cs) ++ W) = false := by
        have hs := noB_suffix ((c :: cs) ++ W) none hmW
          (countLeading isTokenChar cs + 1)
        rw [List.cons_append, List.drop_succ_cons,
          drop_app_le cs W _ (cl_le_length _ _)] at hs
        exact hs
      by_cases hc : isTokenChar c
      · rw [rltrF_cons_tok fuel c cs hc]
        by_cases h15 : 15 ≤ countLeading isTokenChar cs
        · rw [if_pos h15, List.append_assoc]
          rw [noB_seg "[REDACTED]".toList (by decide) none _]
          exact ih (cs.drop (countLeading isTokenChar cs)) W V htr hV
            hsuffix
        · rw [if_neg h15, List.append_assoc]
          refine hasMatch_compose _ _ none (fun i hi => ?_)
            (ih (cs.drop (countLeading isTokenChar cs)) W V htr hV
              hsuffix)
          have h0 := noB_drop ((c :: cs) ++ W) none hmW i
          have halign : (c :: cs) ++ W =
              (c :: cs.take (countLeading isTokenChar cs)) ++
                (cs.drop (countLeading isTokenChar cs) ++ W) := by
            rw [List.cons_append, List.cons_append, ← List.append_assoc,
              List.take_append_drop]
          rw [halign, drop_app_le _ _ i (Nat.le_of_lt hi)] at h0
          exact rltrF_tailRefines fuel (cs.drop (countLeading isTokenChar
            cs)) W V htr ((c :: cs.take (countLeading isTokenChar
              cs)).drop i) h0
      · rw [rltrF_cons_nontok fuel c cs (by rwa [Bool.not_eq_true] at hc)]
        rw [List.cons_append] at hmW
        rw [hasMatchAux_bearer_cons, Bool.or_eq_false_iff] at hmW
        rw [List.cons_append, hasMatchAux_bearer_cons,
          Bool.or_eq_false_iff]
        constructor
        · have htr2 := rltrF_tailRefines fuel cs W V htr [c]
          rw [List.singleton_append, List.singleton_append] at htr2
          rw [htr2 (isSome_false _ hmW.1)]
          rfl
        · rw [hasMatchAux_bearer_prev _ (some c) none]
          refine ih cs W V htr hV ?_
          rw [hasMatchAux_bearer_prev _ none (some c)]
          exact hmW.2

/-- A bearer match starts with a character whose lower case is `b`. -/
theorem bearerTry_head_b (prev : Option Char) (l : List Char) (n : Nat)
    (h : bearerTry prev l = some n) :
    ∃ c0 cs0, l = c0 :: cs0 ∧ c0.toLower = 'b' := by
  obtain ⟨hpre, _, _⟩ := bearerTry_some_parts l n h
  rcases l with _ | ⟨c0, cs0⟩
  · rw [bearer_lit] at hpre
    simp [isPrefixCI] at hpre
  · refine ⟨c0, cs0, rfl, ?_⟩
    rw [bearer_lit] at hpre
    simp only [isPrefixCI, Bool.and_eq_true, beq_iff_eq] at hpre
    have hb := hpre.1
    rw [show 'b'.toLower = 'b' from by decide] at hb
    exact hb.symm

/-- An `sk-` match starts with the literal `sk-`. -/
theorem skTry_decomp (prev : Option Char) (l : List Char) (n : Nat)
    (h : skTry prev l = some n) :
    l = 's' :: 'k' :: '-' :: l.drop 3 := by
  simp only [skTry] at h
  split_ifs at h with h1 h2 h3
  all_goals first
    | exact Option.noConfusion h
    | exact cs_decomp "sk-".toList l h2

/-- A JWT match starts with the literal `eyJ`. -/
theorem jwtTry_decomp (prev : Option Char) (l : List Char) (n : Nat)
    (h : jwtTry prev l = some n) :
    l = 'e' :: 'y' :: 'J' :: l.drop 3 := by
  simp only [jwtTry] at h
  split_ifs at h with h1 h2
  all_goals first
    | exact Option.noConfusion h
    | exact cs_decomp "eyJ".toList l h2

theorem bearer_block_ok (rec : List Char)
    (hrec : hasMatchAux bearerRule none rec = false) :
    hasMatchAux bearerRule none ("Bearer [REDACTED]".toList ++ rec)
      = false := by
  show hasMatchAux bearerRule none
    ('B' :: (['e', 'a', 'r', 'e', 'r', ' ', '[', 'R', 'E', 'D', 'A', 'C',
      'T', 'E', 'D', ']'] ++ rec)) = false
  rw [hasMatchAux_bearer_cons]
  rw [show bearerTry none ('B' :: (['e', 'a', 'r', 'e', 'r', ' ', '[', 'R',
    'E', 'D', 'A', 'C', 'T', 'E', 'D', ']'] ++ rec)) = none from
    bearerTry_block _]
  rw [noB_seg ['e', 'a', 'r', 'e', 'r', ' ', '[', 'R', 'E', 'D', 'A', 'C',
    'T', 'E', 'D', ']'] (by decide) (some 'B') rec]
  simp [hrec]

theorem sk_block_ok (rec : List Char)
    (hrec : hasMatchAux bearerRule none rec = false) :
    hasMatchAux bearerRule none ("sk-[REDACTED]".toList ++ rec)
      = false := by
  show hasMatchAux bearerRule none
    (['s', 'k', '-', '[', 'R', 'E', 'D', 'A', 'C', 'T', 'E', 'D', ']'] ++
      rec) = false
  rw [noB_seg ['s', 'k', '-', '[', 'R', 'E', 'D', 'A', 'C', 'T', 'E', 'D',
    ']'] (by decide) none rec]
  exact hrec

theorem jwt_block_ok (rec : List Char)
    (hrec : hasMatchAux bearerRule none rec = false) :
    hasMatchAux bearerRule none ("eyJ[REDACTED_JWT]".toList ++ rec)
      = false := by
  show hasMatchAux bearerRule none
    (['e', 'y', 'J', '[', 'R', 'E', 'D', 'A', 'C', 'T', 'E', 'D', '_',
      'J', 'W', 'T', ']'] ++ rec) = false
  rw [noB_seg ['e', 'y', 'J', '[', 'R', 'E', 'D', 'A', 'C', 'T', 'E', 'D',
    '_', 'J', 'W', 'T', ']'] (by decide) none rec]
  exact hrec

/-- The bearer matcher never produces an empty match (a match is at least
`Bearer` plus one whitespace and one token character). -/
theorem bearerTry_pos (prev : Option Char) (l : List Char) (n : Nat)
    (h : bearerTry prev l = some n) : 0 < n := by
  unfold bearerTry at h
  split_ifs at h
  all_goals simp_all
  omega

/-! ## The six rules preserve (or establish) bearer-match-freeness -/

/-- The `sk-` rule, for statements singling it out. -/
def skRule : SensitivePattern :=
  ⟨skTry, skRepl, "OpenAI/Stripe-style API keys"⟩

/-- The generic-API-key rule. -/
def apiRule : SensitivePattern :=
  ⟨apiKeyTry, replaceLongTokenRuns, "Generic API keys"⟩

/-- The password/secret/key rule. -/
def passwordRule : SensitivePattern :=
  ⟨passwordTry, passwordRepl, "Password/secret fields"⟩

/-- The JWT rule. -/
def jwtRule : SensitivePattern := ⟨jwtTry, jwtRepl, "JWT tokens"⟩

/-- The connection-string rule. -/
def pgRule : SensitivePattern :=
  ⟨pgTry, pgRepl, "Database connection strings"⟩

theorem sk_hTR : ∀ (prev : Option Char) (l : List Char) (n : Nat)
    (rec : List Char), skRule.tryAt prev l = some (n + 1) →
    TailRefines (l.drop (n + 1)) rec →
    TailRefines l (skRule.repl (l.take (n + 1)) ++ rec) := by
  intro prev l n rec htry _
  have hd := skTry_decomp prev l (n + 1) htry
  have hseg : TailRefines (['s', 'k', '-'] ++ l.drop 3)
      (['s', 'k', '-'] ++ '[' :: ("REDACTED]".toList ++ rec)) :=
    tailRefines_seg _ _ _ (tailRefines_blocker '[' (Or.inl rfl) _ _)
  intro PP hp
  rw [hd] at hp
  exact hseg PP hp

theorem sk_hOK : ∀ (prev : Option Char) (l : List Char) (n : Nat)
    (rec : List Char), skRule.tryAt prev l = some (n + 1) →
    hasMatchAux bearerRule none l = false →
    hasMatchAux bearerRule none rec = false →
    TailRefines (l.drop (n + 1)) rec →
    hasMatchAux bearerRule none (skRule.repl (l.take (n + 1)) ++ rec)
      = false := by
  intro prev l n rec _ _ hrec _
  exact sk_block_ok rec hrec

theorem jwt_hTR : ∀ (prev : Option Char) (l : List Char) (n : Nat)
    (rec : List Char), jwtRule.tryAt prev l = some (n + 1) →
    TailRefines (l.drop (n + 1)) rec →
    TailRefines l (jwtRule.repl (l.take (n + 1)) ++ rec) := by
  intro prev l n rec htry _
  have hd := jwtTry_decomp prev l (n + 1) htry
  have hseg : TailRefines (['e', 'y', 'J'] ++ l.drop 3)
      (['e', 'y', 'J'] ++ '[' :: ("REDACTED_JWT]".toList ++ rec)) :=
    tailRefines_seg _ _ _ (tailRefines_blocker '[' (Or.inl rfl) _ _)
  intro PP hp
  rw [hd] at hp
  exact hseg PP hp

theorem jwt_hOK : ∀ (prev : Option Char) (l : List Char) (n : Nat)
    (rec : List Char), jwtRule.tryAt prev l = some (n + 1) →
    hasMatchAux bearerRule none l = false →
    hasMatchAux bearerRule none rec = false →
    TailRefines (l.drop (n + 1)) rec →
    hasMatchAux bearerRule none (jwtRule.repl (l.take (n + 1)) ++ rec)
      = false := by
  intro prev l n rec _ _ hrec _
  exact jwt_block_ok rec hrec

theorem take_tw_decomp (l : List Char) (k : Nat) (p : Char → Bool) :
    l = (l.take k).takeWhile p ++ ((l.take k).dropWhile p ++ l.drop k) := by
  conv_lhs => rw [← List.take_append_drop k l]
  rw [← List.append_assoc, List.takeWhile_append_dropWhile]

theorem passwordRepl_assoc (m rec : List Char) :
    passwordRepl m ++ rec =
      m.takeWhile (fun d => !isQuoteChar d) ++
        ('"' :: ("[REDACTED]\"".toList ++ rec)) := by
  simp only [passwordRepl]
  rw [List.append_assoc]
  rfl

theorem password_hTR : ∀ (prev : Option Char) (l : List Char) (n : Nat)
    (rec : List Char), passwordRule.tryAt prev l = some (n + 1) →
    TailRefines (l.drop (n + 1)) rec →
    TailRefines l (passwordRule.repl (l.take (n + 1)) ++ rec) := by
  intro prev l n rec _ _
  intro PP hp
  show bearerTry none (PP ++ (passwordRepl (l.take (n + 1)) ++ rec)) = none
  rw [passwordRepl_assoc]
  rw [take_tw_decomp l (n + 1) (fun d => !isQuoteChar d),
    ← List.append_assoc] at hp
  have h2 := bearer_transport
    (PP ++ (l.take (n + 1)).takeWhile (fun d => !isQuoteChar d))
    ((l.take (n + 1)).dropWhile (fun d => !isQuoteChar d) ++ l.drop (n + 1))
    ("[REDACTED]\"".toList ++ rec) '"' (Or.inr rfl) hp
  rw [List.append_assoc] at h2
  exact h2

theorem password_hOK : ∀ (prev : Option Char) (l : List Char) (n : Nat)
    (rec : List Char), passwordRule.tryAt prev l = some (n + 1) →
    hasMatchAux bearerRule none l = false →
    hasMatchAux bearerRule none rec = false →
    TailRefines (l.drop (n + 1)) rec →
    hasMatchAux bearerRule none
      (passwordRule.repl (l.take (n + 1)) ++ rec) = false := by
  intro prev l n rec _ hl hrec _
  show hasMatchAux bearerRule none
    (passwordRepl (l.take (n + 1)) ++ rec) = false
  rw [passwordRepl_assoc]
  refine hasMatch_compose _ _ none (fun i hi => ?_) ?_
  · have h0 := noB_drop l none hl i
    rw [take_tw_decomp l (n + 1) (fun d => !isQuoteChar d),
      drop_app_le _ _ i (Nat.le_of_lt hi)] at h0
    exact bearer_transport _ _ _ '"' (Or.inr rfl) h0
  · show hasMatchAux bearerRule none
      ("\"[REDACTED]\"".toList ++ rec) = false
    rw [noB_seg "\"[REDACTED]\"".toList (by decide) none rec]
    exact hrec

theorem api_hTR : ∀ (prev : Option Char) (l : List Char) (n : Nat)
    (rec : List Char), apiRule.tryAt prev l = some (n + 1) →
    TailRefines (l.drop (n + 1)) rec →
    TailRefines l (apiRule.repl (l.take (n + 1)) ++ rec) := by
  intro prev l n rec _ htr
  have h2 := rltrF_tailRefines ((l.take (n + 1)).length + 1)
    (l.take (n + 1)) (l.drop (n + 1)) rec htr
  rw [List.take_append_drop] at h2
  exact h2

theorem api_hOK : ∀ (prev : Option Char) (l : List Char) (n : Nat)
    (rec : List Char), apiRule.tryAt prev l = some (n + 1) →
    hasMatchAux bearerRule none l = false →
    hasMatchAux bearerRule none rec = false →
    TailRefines (l.drop (n + 1)) rec →
    hasMatchAux bearerRule none (apiRule.repl (l.take (n + 1)) ++ rec)
      = false := by
  intro prev l n rec _ hl hrec htr
  refine rltrF_ok ((l.take (n + 1)).length + 1) (l.take (n + 1))
    (l.drop (n + 1)) rec htr hrec ?_
  rw [List.take_append_drop]
  exact hl

theorem pg_hTR : ∀ (prev : Option Char) (l : List Char) (n : Nat)
    (rec : List Char), pgRule.tryAt prev l = some (n + 1) →
    TailRefines (l.drop (n + 1)) rec →
    TailRefines l (pgRule.repl (l.take (n + 1)) ++ rec) := by
  intro prev l n rec _ _
  obtain ⟨K, K2, hshape⟩ := pgRepl_shape (l.take (n + 1))
  intro PP hp
  show bearerTry none (PP ++ (pgRepl (l.take (n + 1)) ++ rec)) = none
  rw [hshape, List.append_assoc, List.append_assoc]
  have hp2 : bearerTry none ((PP ++ (l.take (n + 1)).take K) ++
      l.drop (min K (n + 1))) = none := by
    rw [List.append_assoc, List.take_take, List.take_append_drop]
    exact hp
  have h3 := bearer_transport (PP ++ (l.take (n + 1)).take K)
    (l.drop (min K (n + 1)))
    ("REDACTED]".toList ++ ((l.take (n + 1)).drop K2 ++ rec)) '['
    (Or.inl rfl) hp2
  rw [List.append_assoc] at h3
  exact h3

theorem pg_hOK : ∀ (prev : Option Char) (l : List Char) (n : Nat)
    (rec : List Char), pgRule.tryAt prev l = some (n + 1) →
    hasMatchAux bearerRule none l = false →
    hasMatchAux bearerRule none rec = false →
    TailRefines (l.drop (n + 1)) rec →
    hasMatchAux bearerRule none (pgRule.repl (l.take (n + 1)) ++ rec)
      = false := by
  intro prev l n rec _ hl hrec htr
  obtain ⟨K, K2, hshape⟩ := pgRepl_shape (l.take (n + 1))
  show hasMatchAux bearerRule none
    (pgRepl (l.take (n + 1)) ++ rec) = false
  rw [hshape, List.append_assoc, List.append_assoc]
  refine hasMatch_compose _ _ none (fun i hi => ?_) ?_
  · have h0 := noB_drop l none hl i
    have hllA : l = (l.take (n + 1)).take K ++ l.drop (min K (n + 1)) := by
      rw [List.take_take, List.take_append_drop]
    rw [hllA, drop_app_le _ _ i (Nat.le_of_lt hi)] at h0
    exact bearer_transport _ _ _ '[' (Or.inl rfl) h0
  · rw [noB_seg "[REDACTED]".toList (by decide) none _]
    refine hasMatch_compose _ _ none (fun i hi => ?_) hrec
    have hbound : K2 + i ≤ (l.take (n + 1)).length := by
      rw [List.length_drop] at hi
      omega
    have h0 := noB_drop l none hl (K2 + i)
    have hsplit : l.drop (K2 + i) =
        (l.take (n + 1)).drop (K2 + i) ++ l.drop (n + 1) := by
      conv_lhs => rw [← List.take_append_drop (n + 1) l]
      rw [drop_app_le _ _ (K2 + i) hbound]
    rw [hsplit] at h0
    have h2 := htr ((l.take (n + 1)).drop (K2 + i)) h0
    rw [drop_drop_my]
    exact h2

theorem bearer_hTR : ∀ (prev : Option Char) (l : List Char) (n : Nat)
    (rec : List Char), bearerRule.tryAt prev l = some (n + 1) →
    TailRefines (l.drop (n + 1)) rec →
    TailRefines l (bearerRule.repl (l.take (n + 1)) ++ rec) := by
  intro prev l n rec htry _
  obtain ⟨c0, cs0, hl, hc0⟩ := bearerTry_head_b prev l (n + 1) htry
  intro PP hp
  exact bearer_transport_self PP l ("REDACTED]".toList ++ rec) c0 cs0 hl
    hc0 hp

theorem bearer_hOK : ∀ (prev : Option Char) (l : List Char) (n : Nat)
    (rec : List Char), bearerRule.tryAt prev l = some (n + 1) →
    hasMatchAux bearerRule none l = false →
    hasMatchAux bearerRule none rec = false →
    TailRefines (l.drop (n + 1)) rec →
    hasMatchAux bearerRule none
      (bearerRule.repl (l.take (n + 1)) ++ rec) = false := by
  intro prev l n rec _ _ hrec _
  exact bearer_block_ok rec hrec

/-- One rule's pass over a match-free text is match-free. -/
theorem runRepl_no_bearer (r : SensitivePattern)
    (hTR : ∀ prev (l : List Char) n (rec : List Char),
      r.tryAt prev l = some (n + 1) → TailRefines (l.drop (n + 1)) rec →
      TailRefines l (r.repl (l.take (n + 1)) ++ rec))
    (hOK : ∀ prev (l : List Char) n (rec : List Char),
      r.tryAt prev l = some (n + 1) →
      hasMatchAux bearerRule none l = false →
      hasMatchAux bearerRule none rec = false →
      TailRefines (l.drop (n + 1)) rec →
      hasMatchAux bearerRule none (r.repl (l.take (n + 1)) ++ rec) = false)
    (l : List Char) (h : hasMatchAux bearerRule none l = false) :
    hasMatchAux bearerRule none (runRepl r none l) = false :=
  (refines_of_rule r hTR hOK (l.length + 1) none l).2 h

/-- The bearer rule's own pass leaves no bearer match, unconditionally:
matched regions become blocks that cannot take part in a match, and kept
positions had no match in a text that can only have become safer. -/
theorem bearer_pass_clean : ∀ (fuel : Nat) (prev : Option Char)
    (l : List Char), l.length < fuel →
    hasMatchAux bearerRule none (runReplF bearerRule fuel prev l)
      = false := by
  intro fuel
  induction fuel with
  | zero => intro prev l h; omega
  | succ fuel ih =>
    intro prev l hlen
    match l with
    | [] => rfl
    | c :: cs =>
      rcases htry : bearerRule.tryAt prev (c :: cs) with _ | n
      · rw [runReplF_cons_none _ fuel prev c cs htry]
        rw [hasMatchAux_bearer_cons, Bool.or_eq_false_iff]
        constructor
        · have htr := (refines_of_rule bearerRule bearer_hTR bearer_hOK
            fuel (some c) cs).1 [c]
          rw [List.singleton_append, List.singleton_append] at htr
          have hhead : bearerTry none (c :: cs) = none := htry
          rw [htr hhead]
          rfl
        · rw [hasMatchAux_bearer_prev _ (some c) none]
          exact ih (some c) cs (by rw [List.length_cons] at hlen; omega)
      · match n, htry with
        | 0, htry =>
          exact absurd (bearerTry_pos prev (c :: cs) 0 htry) (by omega)
        | n + 1, htry =>
          rw [runReplF_cons_some _ fuel prev c cs n htry]
          refine bearer_block_ok _ ?_
          refine ih _ _ ?_
          rw [List.length_drop, List.length_cons]
          rw [List.length_cons] at hlen
          omega

/-- After the full six-rule redactor no bearer match remains anywhere. -/
theorem sanitize_no_bearer (s : String) :
    hasMatch bearerRule (sanitizeString s) = false := by
  have h1 := bearer_pass_clean (s.data.length + 1) none s.data
    (Nat.lt_succ_self _)
  have h2 := runRepl_no_bearer skRule sk_hTR sk_hOK _ h1
  have h3 := runRepl_no_bearer apiRule api_hTR api_hOK _ h2
  have h4 := runRepl_no_bearer passwordRule password_hTR password_hOK _ h3
  have h5 := runRepl_no_bearer jwtRule jwt_hTR jwt_hOK _ h4
  have h6 := runRepl_no_bearer pgRule pg_hTR pg_hOK _ h5
  exact h6

/-! ## From substrings to matches -/

theorem containsSub_decomp (pat : List Char) : ∀ l : List Char,
    containsSub pat l = true → ∃ u v, l = u ++ (pat ++ v) := by
  intro l
  induction l with
  | nil =>
    intro h
    match pat, h with
    | [], _ => exact ⟨[], [], rfl⟩
  | cons c cs ih =>
    intro h
    simp only [containsSub, Bool.or_eq_true] at h
    rcases h with h | h
    · obtain ⟨v, hv⟩ := List.isPrefixOf_iff_prefix.mp h
      exact ⟨[], v, by rw [List.nil_append, hv]⟩
    · obtain ⟨u, v, huv⟩ := ih h
      exact ⟨c :: u, v, by rw [huv]; rfl⟩

/-- The bearer matcher succeeds at the head of `Bearer` + whitespace +
token characters, whatever follows. -/
theorem bearerTry_at_token (w t v : List Char)
    (hw : w ≠ []) (hwa : w.all isWsChar = true)
    (ht : t ≠ []) (hta : t.all isTokenChar = true) :
    (bearerTry none
      ('B' :: 'e' :: 'a' :: 'r' :: 'e' :: 'r' :: (w ++ (t ++ v)))).isSome
      = true := by
  have hpre : isPrefixCI "bearer".toList
      ('B' :: 'e' :: 'a' :: 'r' :: 'e' :: 'r' :: (w ++ (t ++ v)))
      = true := by rfl
  have hwrun : countLeading isWsChar (w ++ (t ++ v)) = w.length := by
    rw [cl_full isWsChar w (t ++ v) (cl_all _ _ hwa)]
    rcases t with _ | ⟨t0, t2⟩
    · exact absurd rfl ht
    · simp only [List.all_cons, Bool.and_eq_true] at hta
      rw [List.cons_append, cl_cons, if_neg (by simp [tok_not_ws t0
        hta.1])]
      exact Nat.add_zero _
  have h2 : ¬ countLeading isWsChar (w ++ (t ++ v)) = 0 := by
    rw [hwrun]
    intro h0
    exact hw (List.length_eq_zero.mp h0)
  have h3 : ¬ countLeading isTokenChar
      ((w ++ (t ++ v)).drop (countLeading isWsChar (w ++ (t ++ v))))
      = 0 := by
    rw [hwrun, drop_app_len, cl_full isTokenChar t v (cl_all _ _ hta)]
    rcases t with _ | ⟨t0, t2⟩
    · exact absurd rfl ht
    · rw [List.length_cons]
      omega
  have hb := bearerTry_build
    ('B' :: 'e' :: 'a' :: 'r' :: 'e' :: 'r' :: (w ++ (t ++ v))) hpre h2 h3
  cases ho : bearerTry none
      ('B' :: 'e' :: 'a' :: 'r' :: 'e' :: 'r' :: (w ++ (t ++ v))) with
  | none => exact absurd ho hb
  | some k => rfl

/-- A match-free text contains no `Bearer` + whitespace + token
substring. -/
theorem no_token_substring (out : List Char)
    (hno : hasMatchAux bearerRule none out = false)
    (w t : List Char) (hw : w ≠ []) (hwa : w.all isWsChar = true)
    (ht : t ≠ []) (hta : t.all isTokenChar = true) :
    containsSub ('B' :: 'e' :: 'a' :: 'r' :: 'e' :: 'r' :: (w ++ t)) out
      = false := by
  by_contra hc
  rw [Bool.not_eq_false] at hc
  obtain ⟨u, v, huv⟩ := containsSub_decomp _ out hc
  have hsome := bearerTry_at_token w t v hw hwa ht hta
  have hmat := hasMatch_of_app u
    ('B' :: 'e' :: 'a' :: 'r' :: 'e' :: 'r' :: (w ++ (t ++ v))) none
    (by simp) hsome
  rw [huv] at hno
  have halign : ('B' :: 'e' :: 'a' :: 'r' :: 'e' :: 'r' :: (w ++ t)) ++ v
      = 'B' :: 'e' :: 'a' :: 'r' :: 'e' :: 'r' :: (w ++ (t ++ v)) := by
    rw [List.cons_append, List.cons_append, List.cons_append,
      List.cons_append, List.cons_append, List.cons_append,
      List.append_assoc]
  rw [halign] at hno
  rw [hmat] at hno
  exact absurd hno (by decide)

/-! ## Claims -/

/-- C4: for every input value, `sanitizeLogData` returns normally — it
equals the sanitized value when the walk succeeds, and when the walk
throws, the exception is caught at the top level and converted into the
diagnostic record carrying the original value's `typeof` and the error
message. -/
theorem C4_sanitizeLogData_total_with_diagnostic (ctx : Ctx) (v : JSVal) :
    (∀ r, sanitizeObject ctx v 10 = .ok r → sanitizeLogData ctx v = r)
    ∧ (∀ msg, sanitizeObject ctx v 10 = .error msg →
        sanitizeLogData ctx v =
          .obj [("_sanitization_error", .bool true),
                ("_original_type", .str (jsTypeof v)),
                ("_error", .str msg)]) := by
  constructor
  · intro r h
    simp [sanitizeLogData, h]
  · intro msg h
    simp [sanitizeLogData, h]

/-- Witness for C4 at a concrete throwing input: an array containing a
value whose property enumeration throws makes the walk throw (the array
branch has no handler), and the diagnostic record is returned. -/
theorem C4_sanitizeLogData_total_with_diagnostic_witness :
    sanitizeObject ctxProd (.arr [.poison "boom"]) 10 = .error "boom"
    ∧ sanitizeLogData ctxProd (.arr [.poison "boom"])
        = .obj [("_sanitization_error", .bool true),
                ("_original_type", .str "object"),
                ("_error", .str "boom")] :=
  ⟨rfl,
    (C4_sanitizeLogData_total_with_diagnostic ctxProd
      (.arr [.poison "boom"])).2 "boom" rfl⟩

/-- C7: at construction the façade attaches the structured backend iff the
execution context is server-side and the active configuration has
`useStructured`; `useStructured` holds exactly for the production
environment; and no façade call changes the instance's state — in
particular the chosen backend — afterwards. -/
theorem C7_backend_selection (ctx : Ctx) (module : String) :
    ((mkLogger ctx module).structuredLogger.isSome
        = (ctx.isServer && (activeConfig ctx.nodeEnv).useStructured))
    ∧ ((activeConfig ctx.nodeEnv).useStructured = true
        ↔ ENV ctx.nodeEnv = "production")
    ∧ (∀ (st : LoggerState) (lvl : LogLevel) (msg : String)
        (args : List JSVal) (now : String),
        (facadeLog ctx st lvl msg args now).2 = st) := by
  refine ⟨?_, ?_, ?_⟩
  · by_cases h : (ctx.isServer && (activeConfig ctx.nodeEnv).useStructured) = true <;>
      simp [mkLogger, h]
  · unfold activeConfig ENV LOG_CONFIG
    split_ifs <;>
      simp_all [developmentConfig, productionConfig, testConfig]
  · intro st lvl msg args now
    cases st with
    | mk m2 slo =>
      cases slo with
      | none => simp [facadeLog]
      | some sl =>
        have hfmt : (formatLogData ctx sl msg (some []) args).2 = sl := by
          simp only [formatLogData]
          split <;> first
            | rfl
            | (split <;> rfl)
        simp [facadeLog, structuredEmit, hfmt]

/-- C8: a logger façade constructed in the test environment attaches no
structured backend and emits nothing on any call at any level; moreover a
structured logger used directly in the test environment emits nothing
either (its Pino level is `silent`). -/
theorem C8_test_env_emits_nothing (heap : List (List (String × JSVal)))
    (isServer : Bool) (module : String) (lvl : LogLevel) (msg : String)
    (args : List JSVal) (now : String) :
    (mkLogger ⟨heap, "test", isServer⟩ module).structuredLogger = none
    ∧ (facadeLog ⟨heap, "test", isServer⟩
        (mkLogger ⟨heap, "test", isServer⟩ module) lvl msg args now).1 = none
    ∧ (∀ (sl : SLoggerState) (slvl : SLogLevel)
        (context : Option (List (String × JSVal))) (args2 : List JSVal),
        (structuredEmit ⟨heap, "test", isServer⟩ sl slvl msg context args2).1
          = none) := by
  refine ⟨?_, ?_, ?_⟩
  · simp [mkLogger, activeConfig, ENV, LOG_CONFIG, testConfig]
  · simp [facadeLog, mkLogger, activeConfig, ENV, LOG_CONFIG, testConfig,
      consoleLog, shouldLog, shouldLogInEnvironment]
  · intro sl slvl context args2
    have hp : pinoEmits "test" slvl = false := by
      cases slvl <;> simp [pinoEmits, pinoLevel, pinoLevelValue, slevelValue]
    simp [structuredEmit, hp]

/-- C10: a `Map` or `Set` value falls through to the plain-object branch,
so it is sanitized exactly like the plain object of its own enumerable
string-keyed properties; its internal entries/elements are discarded, and
with no own properties the result is the empty object. -/
theorem C10_map_set_sanitized_as_own_props (ctx : Ctx)
    (items : List (JSVal × JSVal)) (setItems : List JSVal)
    (own : List (String × JSVal)) :
    sanitizeLogData ctx (.jsmap items own) = sanitizeLogData ctx (.obj own)
    ∧ sanitizeLogData ctx (.jsset setItems own) = sanitizeLogData ctx (.obj own)
    ∧ sanitizeLogData ctx (.jsmap items []) = .obj []
    ∧ sanitizeLogData ctx (.jsset setItems []) = .obj [] := by
  refine ⟨?_, ?_, ?_, ?_⟩ <;>
    simp [sanitizeLogData, sanitizeObject, sanitizeEntriesWith]

/-- C1 (code bug): on the console backend the sanitizer is never applied —
a development-environment façade call forwards the raw argument
`"Bearer abc"` to the console, even though `sanitizeLogData` would have
redacted it. -/
theorem C1_console_path_emits_unsanitized :
    (facadeLog ctxDev (mkLogger ctxDev "App") .INFO "msg"
        [.str "Bearer abc"] "2024-01-01T00:00:00.000Z").1
      = some (.console ⟨"2024-01-01T00:00:00.000Z", .INFO, "App", "msg",
          [.str "Bearer abc"], true, false⟩)
    ∧ sanitizeLogData ctxDev (.str "Bearer abc") = .str "Bearer [REDACTED]"
    ∧ sanitizeLogArgs ctxDev [.str "Bearer abc"]
        = [.str "Bearer [REDACTED]"] :=
  ⟨rfl, rfl, rfl⟩

/-- C5 (code bug): the `g`-flagged patterns make `pattern.test` stateful
through `lastIndex`, so two successive `containsSensitiveData` calls on
the same sensitive string return `true` then `false`, and two successive
`detectSensitivePatterns` calls return the bearer label and then the empty
list. -/
theorem C5_queries_are_stateful :
    (containsSensitiveData initPatternState "Bearer abc").1 = true
    ∧ (containsSensitiveData
        (containsSensitiveData initPatternState "Bearer abc").2
        "Bearer abc").1 = false
    ∧ (detectSensitivePatterns initPatternState "Bearer abc").1
        = ["Bearer tokens"]
    ∧ (detectSensitivePatterns
        (detectSensitivePatterns initPatternState "Bearer abc").2
        "Bearer abc").1 = [] :=
  ⟨rfl, rfl, rfl, rfl⟩

/-- C6 (code bug): a structured log call with no context object and at
least one extra argument aliases the instance's default context and
mutates it in place — afterwards the default context carries an
`additionalData` key it did not have at construction. -/
theorem C6_default_context_mutated_in_place :
    keysOf (mkStructuredLogger "m" []).defaultContext = ["module"]
    ∧ keysOf (structuredEmit ctxProd (mkStructuredLogger "m" []) .info
        "msg" none [.str "x"]).2.defaultContext
        = ["module", "additionalData"]
    ∧ ¬ (structuredEmit ctxProd (mkStructuredLogger "m" []) .info
        "msg" none [.str "x"]).2.defaultContext
        = (mkStructuredLogger "m" []).defaultContext := by
  refine ⟨rfl, rfl, ?_⟩
  intro h
  exact absurd (congrArg keysOf h) (by decide)


/-- The heap of the canonical self-referential object
`const o = {}; o.self = o`. -/
def ctxCyc : Ctx := ⟨[[("self", .ref 0)]], "production", true⟩

/-- A walked entry list contains the sentinel as soon as one entry's
sanitization yields a value containing it. -/
theorem containsStrEntries_sanitizeEntriesWith (t : String)
    (f : JSVal → Except String JSVal) (es : List (String × JSVal))
    (k : String) (w : JSVal) (r : JSVal) (hmem : (k, w) ∈ es)
    (hfn : isFunc w = false) (hok : f w = .ok r)
    (hc : containsStrVal t r = true) :
    containsStrEntries t (sanitizeEntriesWith f es) = true := by
  induction es with
  | nil => cases hmem
  | cons hd rest ih =>
    rcases List.mem_cons.mp hmem with h | h
    · subst h
      simp [sanitizeEntriesWith, hfn, hok, containsStrEntries, hc]
    · obtain ⟨k2, w2⟩ := hd
      by_cases h2 : isFunc w2 = true
      · simpa [sanitizeEntriesWith, h2] using ih h
      · have h2' : isFunc w2 = false := by simp_all
        cases hw2 : f w2 with
        | ok r2 =>
          simp [sanitizeEntriesWith, h2', hw2, containsStrEntries, ih h]
        | error m =>
          simp [sanitizeEntriesWith, h2', hw2, containsStrEntries, ih h]

/-- At every depth budget, sanitizing a self-referential object succeeds
and its result contains the depth-cap sentinel. -/
theorem sanitizeObject_cycle_max_depth (ctx : Ctx) (a : Nat)
    (es : List (String × JSVal)) (k : String)
    (hes : ctx.heap.getD a [] = es) (hmem : (k, JSVal.ref a) ∈ es) :
    ∀ d, ∃ r, sanitizeObject ctx (.ref a) d = .ok r
      ∧ containsStrVal "[MAX_DEPTH_REACHED]" r = true := by
  intro d
  induction d with
  | zero =>
    refine ⟨.str "[MAX_DEPTH_REACHED]", rfl, ?_⟩
    simp [containsStrVal]
  | succ d ih =>
    obtain ⟨r, hok, hc⟩ := ih
    refine ⟨.obj (sanitizeEntriesWith (fun w => sanitizeObject ctx w d) es),
      ?_, ?_⟩
    · have hstep : sanitizeObject ctx (.ref a) (d + 1)
          = .ok (.obj (sanitizeEntriesWith (fun w => sanitizeObject ctx w d)
              (ctx.heap.getD a []))) := rfl
      rw [hstep, hes]
    · simp only [containsStrVal]
      exact containsStrEntries_sanitizeEntriesWith _ _ es k (.ref a) r hmem
        rfl hok hc

/-- C2 (amended): a self-referential object terminates through the
`maxDepth` cap — the sanitized result contains the
`'[MAX_DEPTH_REACHED]'` sentinel where the cycle was cut. -/
theorem C2_cycle_terminates_at_depth_cap (ctx : Ctx) (a : Nat)
    (es : List (String × JSVal)) (k : String)
    (hes : ctx.heap.getD a [] = es) (hmem : (k, JSVal.ref a) ∈ es) :
    containsStrVal "[MAX_DEPTH_REACHED]" (sanitizeLogData ctx (.ref a))
      = true := by
  obtain ⟨r, hok, hc⟩ :=
    sanitizeObject_cycle_max_depth ctx a es k hes hmem 10
  simp [sanitizeLogData, hok, hc]

/-- Witness for C2 at the canonical cyclic object `o.self = o`. -/
theorem C2_cycle_terminates_at_depth_cap_witness :
    ctxCyc.heap.getD 0 [] = [("self", JSVal.ref 0)]
    ∧ ("self", JSVal.ref 0) ∈ [("self", JSVal.ref 0)]
    ∧ containsStrVal "[MAX_DEPTH_REACHED]"
        (sanitizeLogData ctxCyc (.ref 0)) = true :=
  ⟨rfl, List.mem_singleton.mpr rfl,
    C2_cycle_terminates_at_depth_cap ctxCyc 0 [("self", JSVal.ref 0)] "self"
      rfl (List.mem_singleton.mpr rfl)⟩

/-- C2 (counterexample): the sanitized cyclic object is exactly ten
nested `self` objects ending in the `'[MAX_DEPTH_REACHED]'` string — the
`'[CIRCULAR_REFERENCE]'` sentinel claimed for the cyclic edge appears
nowhere in it. -/
theorem C2_counterexample_no_circular_sentinel :
    sanitizeLogData ctxCyc (.ref 0)
      = .obj [("self", .obj [("self", .obj [("self", .obj [("self",
          .obj [("self", .obj [("self", .obj [("self", .obj [("self",
          .obj [("self", .obj [("self",
          .str "[MAX_DEPTH_REACHED]")])])])])])])])])])]
    ∧ containsStrVal "[CIRCULAR_REFERENCE]" (sanitizeLogData ctxCyc (.ref 0))
        = false := by
  refine ⟨rfl, ?_⟩
  have h : sanitizeLogData ctxCyc (.ref 0)
      = .obj [("self", .obj [("self", .obj [("self", .obj [("self",
          .obj [("self", .obj [("self", .obj [("self", .obj [("self",
          .obj [("self", .obj [("self",
          .str "[MAX_DEPTH_REACHED]")])])])])])])])])])] := rfl
  rw [h]
  simp [containsStrVal, containsStrEntries]


/-- A list is a `isPrefixOf`-prefix of itself followed by anything. -/
theorem isPrefixOf_self_append (l t : List Char) :
    l.isPrefixOf (l ++ t) = true := by
  induction l with
  | nil => simp
  | cons c cs ih => simp [List.isPrefixOf, ih]

/-- A nonempty pattern occurs in `pat ++ t`. -/
theorem containsSub_self_append (c : Char) (pat t : List Char) :
    containsSub (c :: pat) ((c :: pat) ++ t) = true := by
  simp [containsSub, isPrefixOf_self_append]

/-- Wherever the bearer rule matches, its replacement scan inserts the
placeholder `Bearer [REDACTED]` (given enough fuel, which the wrapper
always supplies). -/
theorem runReplF_bearer_contains (fuel : Nat) :
    ∀ (prev : Option Char) (l : List Char), l.length < fuel →
      hasMatchAux bearerRule prev l = true →
      containsSub "Bearer [REDACTED]".toList
        (runReplF bearerRule fuel prev l) = true := by
  induction fuel with
  | zero => intro prev l hl; omega
  | succ fuel ih =>
    intro prev l hl hm
    match l with
    | [] => simp [hasMatchAux] at hm
    | c :: cs =>
      cases htry : bearerRule.tryAt prev (c :: cs) with
      | some n =>
        match n, htry with
        | n + 1, htry =>
          rw [runReplF]
          rw [htry]
          exact containsSub_self_append _ _ _
        | 0, htry => exact absurd (bearerTry_pos prev (c :: cs) 0 htry) (by omega)
      | none =>
        have hm2 : hasMatchAux bearerRule (some c) cs = true := by
          simpa [hasMatchAux, htry] using hm
        have hrec := ih (some c) cs (by simpa using Nat.lt_of_succ_lt_succ hl) hm2
        rw [runReplF]
        rw [htry]
        simp only [containsSub, Bool.or_eq_true]
        exact Or.inr hrec

/-- C9 (corrected): (1) for every input string, the full six-rule
redactor's output contains no bearer match at all — in particular (2) no
substring `Bearer` + whitespace + token characters, so no original
`Bearer <token>` fragment survives; and (3) on every string containing a
bearer token, the bearer rule's own pass inserts the placeholder
`Bearer [REDACTED]`.  The placeholder itself need not survive to the
final output, because a later rule may rewrite the region enclosing it
(see the counterexample). -/
theorem C9_redactor_removes_bearer_tokens (s : String) :
    hasMatch bearerRule (sanitizeString s) = false
    ∧ (∀ w t : List Char, w ≠ [] → w.all isWsChar = true → t ≠ [] →
        t.all isTokenChar = true →
        strContains (sanitizeString s)
          (String.mk ('B' :: 'e' :: 'a' :: 'r' :: 'e' :: 'r' :: (w ++ t)))
          = false)
    ∧ (hasMatch bearerRule s = true →
        strContains (bearerPass s) "Bearer [REDACTED]" = true) := by
  refine ⟨sanitize_no_bearer s, fun w t hw hwa ht hta => ?_, fun h => ?_⟩
  · exact no_token_substring (sanitizeString s).data (sanitize_no_bearer s)
      w t hw hwa ht hta
  · have := runReplF_bearer_contains (s.data.length + 1) none s.data
      (Nat.lt_succ_self _) h
    simpa [strContains, bearerPass, runRepl] using this

/-- Witness for C9 at concrete inputs: `Bearer abc` matches, its full
redaction is match-free, the redaction of `password="Bearer abc"`
contains no `Bearer abc` substring, and the bearer pass on `Bearer abc`
inserts the placeholder. -/
theorem C9_redactor_removes_bearer_tokens_witness :
    hasMatch bearerRule "Bearer abc" = true
    ∧ hasMatch bearerRule (sanitizeString "Bearer abc") = false
    ∧ strContains (sanitizeString "password=\"Bearer abc\"")
        (String.mk ('B' :: 'e' :: 'a' :: 'r' :: 'e' :: 'r' ::
          ([' '] ++ ['a', 'b', 'c']))) = false
    ∧ strContains (bearerPass "Bearer abc") "Bearer [REDACTED]" = true :=
  ⟨rfl, (C9_redactor_removes_bearer_tokens "Bearer abc").1,
    (C9_redactor_removes_bearer_tokens "password=\"Bearer abc\"").2.1
      [' '] ['a', 'b', 'c'] (by decide) (by decide) (by decide)
      (by decide),
    (C9_redactor_removes_bearer_tokens "Bearer abc").2.2 rfl⟩

/-- C9 (counterexample): `password="Bearer abc"` contains a bearer token,
yet the full redactor's output contains neither the original token nor the
placeholder — the password rule rewrites the quoted region in which the
bearer rule had placed `Bearer [REDACTED]`. -/
theorem C9_counterexample_placeholder_rewritten :
    hasMatch bearerRule "password=\"Bearer abc\"" = true
    ∧ sanitizeString "password=\"Bearer abc\"" = "password=\"[REDACTED]\""
    ∧ strContains (sanitizeString "password=\"Bearer abc\"")
        "Bearer [REDACTED]" = false
    ∧ strContains (sanitizeString "password=\"Bearer abc\"")
        "Bearer abc" = false :=
  ⟨rfl, rfl, rfl, rfl⟩


/-- C3 (code bug): sanitization is not idempotent.  The Error branch
redacts `message` (and `stack`) but copies `name` verbatim, so sensitive
data in an Error name escapes the first pass — contradicting the
sanitizer's documented purpose — and the second pass, which walks the
resulting plain object, redacts it, making the two passes disagree.  The
witnessing Error contains no functions. -/
theorem C3_idempotence_fails_on_error_name :
    getKeyStr (sanitizeLogData ctxProd
        (.err "Bearer abc" "Bearer xyz" none [])) "message"
        = some "Bearer [REDACTED]"
    ∧ getKeyStr (sanitizeLogData ctxProd
        (.err "Bearer abc" "Bearer xyz" none [])) "name"
        = some "Bearer abc"
    ∧ getKeyStr (sanitizeLogData ctxProd (sanitizeLogData ctxProd
        (.err "Bearer abc" "Bearer xyz" none []))) "name"
        = some "Bearer [REDACTED]"
    ∧ ¬ (sanitizeLogData ctxProd (sanitizeLogData ctxProd
          (.err "Bearer abc" "Bearer xyz" none []))
        = sanitizeLogData ctxProd (.err "Bearer abc" "Bearer xyz" none [])) := by
  refine ⟨rfl, rfl, rfl, ?_⟩
  intro h
  exact absurd (congrArg (fun v => getKeyStr v "name") h) (by decide)

end Sim
